import Mathlib

/-!
# String matchers of `StringMatcher.cpp`

A shallow embedding of the five exact string matchers (`bruteForceSearch`,
`rabinKarpSearch`, `kmpSearch`, `sundaySearch`, `boyerMooreSearch`), their table
builders and the dispatcher `runAlgorithm`, followed by theorems about them.

Conventions of the embedding.
* A `std::string` is a list of bytes; `s[i]` is `charAt s i`.
* Loop counters that only count upwards from `0` are natural numbers; a `for`
  loop with a plain counter is a structural recursion on the number of
  iterations still to run.
* A `while` loop whose termination is not evident from a counter takes a `fuel`
  argument bounding its number of iterations and answers `none` when the fuel is
  used up; `none` is also the answer of a write outside a vector.
* Positions, indices and comparison counters are unbounded integers; the 32-bit range
  of `int` is modelled where the code computes with values that can leave it, in
  the hash arithmetic of `rabinKarpSearch` (`wrap32`).
* The `duration` field of `SearchResult` (wall-clock time) is not modelled.
-/

namespace StringMatcher

/-- A byte of a `std::string`. -/
abbrev CChar := Fin 256

/-- A `std::string`, as the list of its bytes. -/
abbrev CString := List CChar

/-- Unchecked read `s[i]`; at `i = s.size()` a `std::string` yields the terminator `0`. -/
def charAt (s : CString) (i : Nat) : CChar := s.getD i 0

/-- Integer promotion of a `char` (signed, as on x86: bytes from 128 on are negative). -/
def charToInt (c : CChar) : Int :=
  if c.val < 128 then (c.val : Int) else (c.val : Int) - 256

/-- Reduction of an integer to the 32-bit two's complement range of `int`. -/
def wrap32 (x : Int) : Int := (x + 2147483648) % 4294967296 - 2147483648

/-- The `%` of C++ on `int`: the remainder of the division truncated towards zero. -/
def cmod (a b : Int) : Int := Int.tmod a b

/-- `SearchResult` of `Types.h`, without the `duration` field. -/
structure SearchResult where
  algorithmName : String := ""
  positions : List Int := []
  characterComparisons : Nat := 0
  deriving DecidableEq

/-! ## bruteForceSearch -/

/-- Inner loop of `bruteForceSearch` (`for (; j < pattern.size(); ++j)`), with
`rem = pattern.size() - j`. Returns the final `j` and the comparison counter. -/
def bruteInner (text pattern : CString) (i : Nat) : Nat → Nat → Nat → Nat × Nat
  | 0, j, cmp => (j, cmp)
  | rem + 1, j, cmp =>
    if charAt text (i + j) ≠ charAt pattern j then (j, cmp + 1)
    else bruteInner text pattern i rem (j + 1) (cmp + 1)

/-- Outer loop of `bruteForceSearch` (`for (i = 0; i <= n - m; ++i)`), with `rem`
the number of window starts still to visit. State: positions and counter. -/
def bruteOuter (text pattern : CString) : Nat → Nat → List Int → Nat → List Int × Nat
  | 0, _, pos, cmp => (pos, cmp)
  | rem + 1, i, pos, cmp =>
    let r := bruteInner text pattern i pattern.length 0 cmp
    if r.1 = pattern.length then
      bruteOuter text pattern rem (i + 1) (pos ++ [(i : Int)]) r.2
    else
      bruteOuter text pattern rem (i + 1) pos r.2

/-- The function `bruteForceSearch`. -/
def bruteForceSearch (text pattern : CString) : SearchResult :=
  if pattern.length = 0 ∨ text.length < pattern.length then
    { algorithmName := "Brute Force" }
  else
    let r := bruteOuter text pattern (text.length - pattern.length + 1) 0 [] 0
    { algorithmName := "Brute Force", positions := r.1, characterComparisons := r.2 }

/-! ## rabinKarpSearch -/

/-- First loop of `rabinKarpSearch`: `highestPower = (highestPower * base) % modulus`,
run `rem` times. -/
def rkHighestPower (base modulus : Int) : Nat → Int → Int
  | 0, hp => hp
  | rem + 1, hp => rkHighestPower base modulus rem (cmod (wrap32 (hp * base)) modulus)

/-- One Horner step `(base * h + c) % modulus` in `int` arithmetic. -/
def rkHornerStep (base modulus : Int) (h : Int) (c : CChar) : Int :=
  cmod (wrap32 (wrap32 (base * h) + charToInt c)) modulus

/-- Second loop of `rabinKarpSearch`: the hashes of the pattern and of the first
window, computed together. State: `(patternHash, textHash)`. -/
def rkInitHashes (text pattern : CString) (base modulus : Int) :
    Nat → Nat → Int × Int → Int × Int
  | 0, _, h => h
  | rem + 1, i, h =>
    rkInitHashes text pattern base modulus rem (i + 1)
      (rkHornerStep base modulus h.1 (charAt pattern i),
       rkHornerStep base modulus h.2 (charAt text i))

/-- Confirmation loop of `rabinKarpSearch` (`for (j = 0; j < m; ++j)`), with
`rem = m - j`. Returns the flag `match` and the comparison counter. -/
def rkVerify (text pattern : CString) (i : Nat) : Nat → Nat → Nat → Bool × Nat
  | 0, _, cmp => (true, cmp)
  | rem + 1, j, cmp =>
    if charAt text (i + j) ≠ charAt pattern j then (false, cmp + 1)
    else rkVerify text pattern i rem (j + 1) (cmp + 1)

/-- The rolling update of `textHash` when the window moves from `i` to `i + 1`. -/
def rkRoll (text : CString) (base modulus highestPower : Int) (m i : Nat) (textHash : Int) :
    Int :=
  let t := cmod (wrap32 (wrap32 (base *
      wrap32 (textHash - wrap32 (charToInt (charAt text i) * highestPower)))
        + charToInt (charAt text (i + m)))) modulus
  if t < 0 then wrap32 (t + modulus) else t

/-- Main loop of `rabinKarpSearch` (`for (i = 0; i <= n - m; ++i)`), with `rem` the
number of windows still to visit. State: `textHash`, positions, counter. -/
def rkLoop (text pattern : CString) (base modulus highestPower patternHash : Int)
    (n m : Nat) : Nat → Nat → Int → List Int → Nat → List Int × Nat
  | 0, _, _, pos, cmp => (pos, cmp)
  | rem + 1, i, textHash, pos, cmp =>
    let v := if patternHash = textHash then rkVerify text pattern i m 0 cmp else (false, cmp)
    let pos := if v.1 then pos ++ [(i : Int)] else pos
    let textHash :=
      if i < n - m then rkRoll text base modulus highestPower m i textHash else textHash
    rkLoop text pattern base modulus highestPower patternHash n m rem (i + 1) textHash pos v.2

/-- The function `rabinKarpSearch`; the header gives `base = 256`, `modulus = 101`
as defaults. -/
def rabinKarpSearch (text pattern : CString) (base : Int := 256) (modulus : Int := 101) :
    SearchResult :=
  if pattern.length = 0 ∨ text.length < pattern.length then
    { algorithmName := "Rabin-Karp" }
  else
    let m := pattern.length
    let n := text.length
    let highestPower := rkHighestPower base modulus (m - 1) 1
    let h := rkInitHashes text pattern base modulus m 0 (0, 0)
    let r := rkLoop text pattern base modulus highestPower h.1 n m (n - m + 1) 0 h.2 [] 0
    { algorithmName := "Rabin-Karp", positions := r.1, characterComparisons := r.2 }

/-! ## kmpSearch -/

/-- The fallback loop `while (length > 0 && pattern[length] != c) { ++comparisons;
length = table[length - 1]; }` shared by `buildKmpPrefix` and `kmpSearch`.
Returns the final `length` and the counter; `none` when the fuel runs out. -/
def kmpFallback (pattern : CString) (table : List Nat) (c : CChar) :
    Nat → Nat → Nat → Option (Nat × Nat)
  | 0, _, _ => none
  | fuel + 1, length, cmp =>
    if 0 < length ∧ charAt pattern length ≠ c then
      kmpFallback pattern table c fuel (table.getD (length - 1) 0) (cmp + 1)
    else some (length, cmp)

/-- The `for (i = 1; i < pattern.size(); ++i)` loop of `buildKmpPrefix`, with `rem`
the number of iterations still to run. State: `length`, table, counter. -/
def kmpPrefixLoop (pattern : CString) (fuel : Nat) :
    Nat → Nat → Nat → List Nat → Nat → Option (List Nat × Nat)
  | 0, _, _, table, cmp => some (table, cmp)
  | rem + 1, i, length, table, cmp =>
    match kmpFallback pattern table (charAt pattern i) fuel length cmp with
    | none => none
    | some r =>
      let length := if charAt pattern r.1 = charAt pattern i then r.1 + 1 else r.1
      kmpPrefixLoop pattern fuel rem (i + 1) length (table.set i length) (r.2 + 1)

/-- The function `buildKmpPrefix`; `comparisons` is the in/out counter. The write
`prefix[0] = 0` is outside the vector when the pattern is empty: `none`. -/
def buildKmpPrefix (fuel : Nat) (pattern : CString) (comparisons : Nat) :
    Option (List Nat × Nat) :=
  if pattern.length = 0 then none
  else
    kmpPrefixLoop pattern fuel (pattern.length - 1) 1 0
      ((List.replicate pattern.length 0).set 0 0) comparisons

/-- The scan loop of `kmpSearch` (`for (i = 0; i < n; ++i)`), with `rem = n - i`.
State: `j`, positions, counter. -/
def kmpScan (text pattern : CString) (table : List Nat) (fuel : Nat) :
    Nat → Nat → Nat → List Int → Nat → Option (List Int × Nat)
  | 0, _, _, pos, cmp => some (pos, cmp)
  | rem + 1, i, j, pos, cmp =>
    match kmpFallback pattern table (charAt text i) fuel j cmp with
    | none => none
    | some r =>
      let j := if charAt pattern r.1 = charAt text i then r.1 + 1 else r.1
      if j = pattern.length then
        kmpScan text pattern table fuel rem (i + 1) (table.getD (j - 1) 0)
          (pos ++ [(i : Int) - (j : Int) + 1]) (r.2 + 1)
      else
        kmpScan text pattern table fuel rem (i + 1) j pos (r.2 + 1)

/-- The function `kmpSearch`. -/
def kmpSearch (fuel : Nat) (text pattern : CString) : Option SearchResult :=
  if pattern.length = 0 ∨ text.length < pattern.length then
    some { algorithmName := "Knuth-Morris-Pratt" }
  else
    match buildKmpPrefix fuel pattern 0 with
    | none => none
    | some t =>
      match kmpScan text pattern t.1 fuel text.length 0 0 [] 0 with
      | none => none
      | some r =>
        some { algorithmName := "Knuth-Morris-Pratt", positions := r.1,
               characterComparisons := r.2 + t.2 }

/-! ## sundaySearch -/

/-- The `unordered_map<char, int>` of `buildSundayTable`, as a finite-support function. -/
abbrev ShiftTable := CChar → Option Nat

/-- The loop of `buildSundayTable`: `table[pattern[i]] = pattern.size() - i`, with
`rem` the number of iterations still to run. -/
def sundayTableLoop (pattern : CString) : Nat → Nat → ShiftTable → ShiftTable
  | 0, _, table => table
  | rem + 1, i, table =>
    sundayTableLoop pattern rem (i + 1)
      (fun c => if c = charAt pattern i then some (pattern.length - i) else table c)

/-- The function `buildSundayTable`. -/
def buildSundayTable (pattern : CString) : ShiftTable :=
  sundayTableLoop pattern pattern.length 0 (fun _ => none)

/-- Inner loop of `sundaySearch` (`while (j < m && text[i + j] == pattern[j])`), with
`rem = m - j`. Returns the final `j` and the counter. -/
def sundayInner (text pattern : CString) (i : Nat) : Nat → Nat → Nat → Nat × Nat
  | 0, j, cmp => (j, cmp)
  | rem + 1, j, cmp =>
    if charAt text (i + j) = charAt pattern j then
      sundayInner text pattern i rem (j + 1) (cmp + 1)
    else (j, cmp)

/-- Main loop of `sundaySearch` (`while (i <= n - m)`). State: `i`, positions,
counter; `none` when the fuel runs out. -/
def sundayLoop (text pattern : CString) (shiftTable : ShiftTable) (n m : Nat) :
    Nat → Nat → List Int → Nat → Option (List Int × Nat)
  | 0, _, _, _ => none
  | fuel + 1, i, pos, cmp =>
    if i ≤ n - m then
      let r := sundayInner text pattern i m 0 cmp
      let pos := if r.1 = m then pos ++ [(i : Int)] else pos
      if i + m ≥ n then some (pos, r.2)
      else
        let next := charAt text (i + m)
        let shift := match shiftTable next with
          | some s => s
          | none => m + 1
        sundayLoop text pattern shiftTable n m fuel (i + shift) pos (r.2 + 1)
    else some (pos, cmp)

/-- The function `sundaySearch`. -/
def sundaySearch (fuel : Nat) (text pattern : CString) : Option SearchResult :=
  if pattern.length = 0 ∨ text.length < pattern.length then
    some { algorithmName := "Sunday" }
  else
    match sundayLoop text pattern (buildSundayTable pattern) text.length pattern.length
        fuel 0 [] 0 with
    | none => none
    | some r => some { algorithmName := "Sunday", positions := r.1, characterComparisons := r.2 }

/-! ## boyerMooreSearch -/

/-- The constant `ASCII_SIZE`. -/
def ASCII_SIZE : Nat := 256

/-- The loop of `buildBadCharacterTable`:
`badChar[static_cast<unsigned char>(pattern[i])] = i`. -/
def badCharLoop (pattern : CString) : Nat → Nat → List Int → List Int
  | 0, _, badChar => badChar
  | rem + 1, i, badChar =>
    badCharLoop pattern rem (i + 1) (badChar.set (charAt pattern i).val (i : Int))

/-- The function `buildBadCharacterTable` (the table is its out-parameter). -/
def buildBadCharacterTable (pattern : CString) : List Int :=
  badCharLoop pattern pattern.length 0 (List.replicate ASCII_SIZE (-1))

/-- The `while (j >= 0 && pattern[j] == pattern[m - 1 - k])` loop of
`buildGoodSuffixTable`. The first argument is `j + 1` (so `0` stands for `j = -1`).
State: `k` and the `suffix` vector; returns the final `j + 1`, `k` and `suffix`. -/
def gsInner (pattern : CString) (m : Nat) : Nat → Nat → List Nat → Nat × Nat × List Nat
  | 0, k, suffix => (0, k, suffix)
  | j + 1, k, suffix =>
    if charAt pattern j = charAt pattern (m - 1 - k) then
      gsInner pattern m j (k + 1) (suffix.set (k + 1) j)
    else (j + 1, k, suffix)

/-- First loop of `buildGoodSuffixTable` (`for (i = 0; i < m - 1; ++i)`).
State: the vectors `suffix` and `prefix`. -/
def gsSuffixLoop (pattern : CString) (m : Nat) :
    Nat → Nat → List Nat → List Nat → List Nat × List Nat
  | 0, _, suffix, prefixFlags => (suffix, prefixFlags)
  | rem + 1, i, suffix, prefixFlags =>
    let r := gsInner pattern m (i + 1) 0 suffix
    if r.1 = 0 then
      gsSuffixLoop pattern m rem (i + 1) r.2.2 (prefixFlags.set r.2.1 1)
    else
      gsSuffixLoop pattern m rem (i + 1) r.2.2 prefixFlags

/-- Second loop of `buildGoodSuffixTable`:
`if (prefix[i]) shift[m - 1 - i] = m - 1 - i`, for `i = 0 .. m - 1`. -/
def gsPrefixShift (prefixFlags : List Nat) (m : Nat) : Nat → Nat → List Int → List Int
  | 0, _, shift => shift
  | rem + 1, i, shift =>
    if prefixFlags.getD i 0 ≠ 0 then
      gsPrefixShift prefixFlags m rem (i + 1)
        (shift.set (m - 1 - i) ((m : Int) - 1 - (i : Int)))
    else gsPrefixShift prefixFlags m rem (i + 1) shift

/-- Third loop of `buildGoodSuffixTable`:
`slen = suffix[i]; if (slen != 0) shift[m - 1 - slen] = m - 1 - i`, for `i = 1 .. m - 1`. -/
def gsSuffixShift (suffix : List Nat) (m : Nat) : Nat → Nat → List Int → List Int
  | 0, _, shift => shift
  | rem + 1, i, shift =>
    let slen := suffix.getD i 0
    if slen ≠ 0 then
      gsSuffixShift suffix m rem (i + 1) (shift.set (m - 1 - slen) ((m : Int) - 1 - (i : Int)))
    else gsSuffixShift suffix m rem (i + 1) shift

/-- The function `buildGoodSuffixTable`. -/
def buildGoodSuffixTable (pattern : CString) : List Int :=
  let m := pattern.length
  let sp := gsSuffixLoop pattern m (m - 1) 0 (List.replicate m 0) (List.replicate m 0)
  let shift := gsPrefixShift sp.2 m m 0 (List.replicate m (m : Int))
  gsSuffixShift sp.1 m (m - 1) 1 shift

/-- Inner loop of `boyerMooreSearch` (`while (j >= 0 && pattern[j] == text[i + j])`).
The first argument is `j + 1`; returns the final `j + 1` and the counter. -/
def bmInner (text pattern : CString) (i : Nat) : Nat → Nat → Nat × Nat
  | 0, cmp => (0, cmp)
  | j + 1, cmp =>
    if charAt pattern j = charAt text (i + j) then bmInner text pattern i j (cmp + 1)
    else (j + 1, cmp)

/-- Main loop of `boyerMooreSearch` (`while (i <= n - m)`). State: `i`, positions,
counter; `none` when the fuel runs out. -/
def bmLoop (text pattern : CString) (badChar goodSuffix : List Int) (n m : Nat) :
    Nat → Nat → List Int → Nat → Option (List Int × Nat)
  | 0, _, _, _ => none
  | fuel + 1, i, pos, cmp =>
    if i ≤ n - m then
      let r := bmInner text pattern i m cmp
      if r.1 = 0 then
        bmLoop text pattern badChar goodSuffix n m fuel
          (i + (goodSuffix.getD 0 0).toNat) (pos ++ [(i : Int)]) r.2
      else
        let j := r.1 - 1
        let badShift := (j : Int) - badChar.getD (charAt text (i + j)).val 0
        let goodShift := goodSuffix.getD j 0
        bmLoop text pattern badChar goodSuffix n m fuel
          (i + (max 1 (max badShift goodShift)).toNat) pos (r.2 + 1)
    else some (pos, cmp)

/-- The function `boyerMooreSearch`. -/
def boyerMooreSearch (fuel : Nat) (text pattern : CString) : Option SearchResult :=
  if pattern.length = 0 ∨ text.length < pattern.length then
    some { algorithmName := "Boyer-Moore" }
  else
    match bmLoop text pattern (buildBadCharacterTable pattern) (buildGoodSuffixTable pattern)
        text.length pattern.length fuel 0 [] 0 with
    | none => none
    | some r =>
      some { algorithmName := "Boyer-Moore", positions := r.1, characterComparisons := r.2 }

/-! ## runAlgorithm -/

/-- The function `runAlgorithm`; `fuel` is handed to the matchers that need it. -/
def runAlgorithm (fuel : Nat) (choice : Int) (text pattern : CString) : Option SearchResult :=
  match choice with
  | 1 => some (bruteForceSearch text pattern)
  | 2 => some (rabinKarpSearch text pattern)
  | 3 => sundaySearch fuel text pattern
  | 4 => kmpSearch fuel text pattern
  | 5 => boyerMooreSearch fuel text pattern
  | _ => some {}

/-! ## Specification: occurrences of a pattern -/

/-- The window of `text` that starts at `i` is `pattern`: `text[i .. i + m) = pattern`. -/
def OccursAt (text pattern : CString) (i : Nat) : Prop :=
  i + pattern.length ≤ text.length ∧ (text.drop i).take pattern.length = pattern

instance (text pattern : CString) (i : Nat) : Decidable (OccursAt text pattern i) := by
  unfold OccursAt; infer_instance

/-- The ascending list of the window starts `p` in `[i, i + rem)` at which `pattern` occurs. -/
def occFrom (text pattern : CString) (i rem : Nat) : List Int :=
  ((List.range' i rem).filter (fun p => decide (OccursAt text pattern p))).map
    (fun (p : Nat) => (p : Int))

/-- The ascending list of all `i` with `0 ≤ i ≤ n - m` and `text[i .. i + m) = pattern`. -/
def occurrences (text pattern : CString) : List Int :=
  occFrom text pattern 0 (text.length - pattern.length + 1)

/-- `k` is the greatest length `≤ bound` for which `pattern[0 .. k)` is a suffix of `s`. -/
def Lps (pattern : CString) (bound : Nat) (s : CString) (k : Nat) : Prop :=
  k ≤ bound ∧ pattern.take k <:+ s ∧ ∀ k', k' ≤ bound → pattern.take k' <:+ s → k' ≤ k

/-- The entries `table[0 .. i)` are right: `table[q - 1]` is the length of the longest
prefix of `pattern` that is a suffix of `pattern[1 .. q)`, that is, the longest proper
border of `pattern[0 .. q)`. -/
def TableOk (pattern : CString) (table : List Nat) (i : Nat) : Prop :=
  ∀ q, 1 ≤ q → q ≤ i →
    Lps pattern (pattern.length - 1) (pattern.take q).tail (table.getD (q - 1) 0)

/-- The positions `e - m + 1` for the `e` in `[i, i + rem)` at which an occurrence of
`pattern` ends in `text` (that is, `pattern` is a suffix of `text[0 .. e]`). -/
def kmpEnds (text pattern : CString) : Nat → Nat → List Int
  | _, 0 => []
  | i, rem + 1 =>
    (if pattern <:+ text.take (i + 1) then [(i : Int) - (pattern.length : Int) + 1] else [])
      ++ kmpEnds text pattern (i + 1) rem

/-- The integer `p` is the start of a window of `text` equal to `pattern`:
`0 ≤ p`, `p + m ≤ n` and `text[p + k] = pattern[k]` for every `k < m`. -/
def ValidPos (text pattern : CString) (p : Int) : Prop :=
  0 ≤ p ∧ p + (pattern.length : Int) ≤ (text.length : Int) ∧
    ∀ k, k < pattern.length → charAt text (p.toNat + k) = charAt pattern k

instance (text pattern : CString) (p : Int) : Decidable (ValidPos text pattern p) := by
  unfold ValidPos; infer_instance

/-- Length of the longest common prefix of two strings. -/
def lcpLen : CString → CString → Nat
  | a :: as, b :: bs => if a = b then lcpLen as bs + 1 else 0
  | _, _ => 0

/-- The sum, over the window starts `p` in `[i, i + rem)`, of `min (m, L_p + 1)`, with `L_p`
the length of the longest common prefix of `text[p .. p + m)` and `pattern`. -/
def bruteCount (text pattern : CString) (i rem : Nat) : Nat :=
  ((List.range' i rem).map
    (fun p => min pattern.length (lcpLen ((text.drop p).take pattern.length) pattern + 1))).sum

/-- The Horner polynomial of a window: the sum of `w[k] * base ^ (|w| - 1 - k)`, with the
characters taken as `int`. -/
def polyHash (base : Int) (w : CString) : Int :=
  w.foldl (fun h c => base * h + charToInt c) 0

/-! ## Bounds-checked twin of the Boyer-Moore code

The functions below repeat `buildGoodSuffixTable` and the scan loop of `boyerMooreSearch`
with every vector and string access checked: a read `v[idx]` needs `0 ≤ idx < v.size()`,
and a write is also given the least index the code may write. An access outside its range
ends the run (`none`, `Run.outOfBounds`). -/

/-- Outcome of a fuelled scan loop under the bounds-checked semantics. -/
inductive Run (α : Type) where
  | done (a : α) : Run α
  | outOfFuel : Run α
  | outOfBounds : Run α
  deriving DecidableEq

/-- The outcome of an unchecked fuelled run, read as an outcome without any access out of
bounds. -/
def Run.ofOption {α : Type} : Option α → Run α
  | some a => Run.done a
  | none => Run.outOfFuel

/-- Checked read `v[idx]`: `none` unless `0 ≤ idx < v.size()`. -/
def readAt {α : Type} (v : List α) (idx : Int) : Option α :=
  if 0 ≤ idx ∧ idx < (v.length : Int) then v[idx.toNat]? else none

/-- Checked write `v[idx] = a`: `none` unless `lo ≤ idx`, `0 ≤ idx` and `idx < v.size()`. -/
def writeAt {α : Type} (v : List α) (lo idx : Int) (a : α) : Option (List α) :=
  if lo ≤ idx ∧ 0 ≤ idx ∧ idx < (v.length : Int) then some (v.set idx.toNat a) else none

/-- Checked `gsInner`: reads `pattern[j]` and `pattern[m - 1 - k]`, writes `suffix[k]`
(after `++k`) with `1 ≤ k`. -/
def gsInnerChecked (pattern : CString) (m : Nat) :
    Nat → Nat → List Nat → Option (Nat × Nat × List Nat)
  | 0, k, suffix => some (0, k, suffix)
  | j + 1, k, suffix =>
    match readAt pattern (j : Int), readAt pattern ((m : Int) - 1 - (k : Int)) with
    | some a, some b =>
      if a = b then
        match writeAt suffix 1 ((k : Int) + 1) j with
        | some suffix' => gsInnerChecked pattern m j (k + 1) suffix'
        | none => none
      else some (j + 1, k, suffix)
    | _, _ => none

/-- Checked `gsSuffixLoop`: writes `prefix[k]` with `1 ≤ k`. -/
def gsSuffixLoopChecked (pattern : CString) (m : Nat) :
    Nat → Nat → List Nat → List Nat → Option (List Nat × List Nat)
  | 0, _, suffix, prefixFlags => some (suffix, prefixFlags)
  | rem + 1, i, suffix, prefixFlags =>
    match gsInnerChecked pattern m (i + 1) 0 suffix with
    | none => none
    | some r =>
      if r.1 = 0 then
        match writeAt prefixFlags 1 (r.2.1 : Int) 1 with
        | some prefixFlags' => gsSuffixLoopChecked pattern m rem (i + 1) r.2.2 prefixFlags'
        | none => none
      else
        gsSuffixLoopChecked pattern m rem (i + 1) r.2.2 prefixFlags

/-- Checked `gsPrefixShift`: reads `prefix[i]`, writes `shift[m - 1 - i]`. -/
def gsPrefixShiftChecked (prefixFlags : List Nat) (m : Nat) :
    Nat → Nat → List Int → Option (List Int)
  | 0, _, shift => some shift
  | rem + 1, i, shift =>
    match readAt prefixFlags (i : Int) with
    | none => none
    | some flag =>
      if flag ≠ 0 then
        match writeAt shift 0 ((m : Int) - 1 - (i : Int)) ((m : Int) - 1 - (i : Int)) with
        | some shift' => gsPrefixShiftChecked prefixFlags m rem (i + 1) shift'
        | none => none
      else gsPrefixShiftChecked prefixFlags m rem (i + 1) shift

/-- Checked `gsSuffixShift`: reads `suffix[i]`, writes `shift[m - 1 - slen]`. -/
def gsSuffixShiftChecked (suffix : List Nat) (m : Nat) :
    Nat → Nat → List Int → Option (List Int)
  | 0, _, shift => some shift
  | rem + 1, i, shift =>
    match readAt suffix (i : Int) with
    | none => none
    | some slen =>
      if slen ≠ 0 then
        match writeAt shift 0 ((m : Int) - 1 - (slen : Int)) ((m : Int) - 1 - (i : Int)) with
        | some shift' => gsSuffixShiftChecked suffix m rem (i + 1) shift'
        | none => none
      else gsSuffixShiftChecked suffix m rem (i + 1) shift

/-- Checked `buildGoodSuffixTable`. -/
def buildGoodSuffixTableChecked (pattern : CString) : Option (List Int) :=
  let m := pattern.length
  match gsSuffixLoopChecked pattern m (m - 1) 0 (List.replicate m 0) (List.replicate m 0) with
  | none => none
  | some sp =>
    match gsPrefixShiftChecked sp.2 m m 0 (List.replicate m (m : Int)) with
    | none => none
    | some shift => gsSuffixShiftChecked sp.1 m (m - 1) 1 shift

/-- Checked `bmInner`: reads `pattern[j]` and `text[i + j]`. -/
def bmInnerChecked (text pattern : CString) (i : Nat) : Nat → Nat → Option (Nat × Nat)
  | 0, cmp => some (0, cmp)
  | j + 1, cmp =>
    match readAt pattern (j : Int), readAt text ((i : Int) + (j : Int)) with
    | some a, some b =>
      if a = b then bmInnerChecked text pattern i j (cmp + 1) else some (j + 1, cmp)
    | _, _ => none

/-- Checked `bmLoop`: after the inner loop it reads `goodSuffix[0]` on a full match, and
`text[i + j]`, `badChar[...]` and `goodSuffix[j]` on a mismatch. -/
def bmLoopChecked (text pattern : CString) (badChar goodSuffix : List Int) (n m : Nat) :
    Nat → Nat → List Int → Nat → Run (List Int × Nat)
  | 0, _, _, _ => Run.outOfFuel
  | fuel + 1, i, pos, cmp =>
    if i ≤ n - m then
      match bmInnerChecked text pattern i m cmp with
      | none => Run.outOfBounds
      | some r =>
        if r.1 = 0 then
          match readAt goodSuffix 0 with
          | none => Run.outOfBounds
          | some g =>
            bmLoopChecked text pattern badChar goodSuffix n m fuel (i + g.toNat)
              (pos ++ [(i : Int)]) r.2
        else
          match readAt text ((i : Int) + ((r.1 - 1 : Nat) : Int)) with
          | none => Run.outOfBounds
          | some c =>
            match readAt badChar (c.val : Int), readAt goodSuffix ((r.1 - 1 : Nat) : Int) with
            | some b, some g =>
              bmLoopChecked text pattern badChar goodSuffix n m fuel
                (i + (max 1 (max (((r.1 - 1 : Nat) : Int) - b) g)).toNat) pos (r.2 + 1)
            | _, _ => Run.outOfBounds
    else Run.done (pos, cmp)

/-! ## Lemmas on windows and on `bruteForceSearch` -/

theorem charAt_eq_getElem (s : CString) (i : Nat) (h : i < s.length) : charAt s i = s[i] := by
  simp [charAt, List.getD_eq_getElem?_getD, List.getElem?_eq_getElem h]

theorem occursAt_iff (text pattern : CString) (i : Nat) :
    OccursAt text pattern i ↔
      i + pattern.length ≤ text.length ∧
        ∀ k, k < pattern.length → charAt text (i + k) = charAt pattern k := by
  unfold OccursAt
  constructor
  · rintro ⟨hlen, h⟩
    refine ⟨hlen, fun k hk => ?_⟩
    rw [charAt_eq_getElem text (i + k) (by omega), charAt_eq_getElem pattern k hk]
    have h2 : ((text.drop i).take pattern.length)[k]? = pattern[k]? := by rw [h]
    rw [List.getElem?_take_of_lt hk, List.getElem?_drop,
      List.getElem?_eq_getElem (by omega : i + k < text.length),
      List.getElem?_eq_getElem hk] at h2
    exact Option.some.inj h2
  · rintro ⟨hlen, h⟩
    refine ⟨hlen, ?_⟩
    apply List.ext_getElem?
    intro k
    by_cases hk : k < pattern.length
    · rw [List.getElem?_take_of_lt hk, List.getElem?_drop,
        List.getElem?_eq_getElem (by omega : i + k < text.length),
        List.getElem?_eq_getElem hk]
      have := h k hk
      rw [charAt_eq_getElem text (i + k) (by omega), charAt_eq_getElem pattern k hk] at this
      rw [this]
    · rw [List.getElem?_eq_none (by simp; omega), List.getElem?_eq_none (by omega)]

theorem bruteInner_fst (text pattern : CString) (i : Nat) :
    ∀ (rem j cmp : Nat), rem + j = pattern.length →
      ((bruteInner text pattern i rem j cmp).1 = pattern.length ↔
        ∀ k, j ≤ k → k < pattern.length → charAt text (i + k) = charAt pattern k) := by
  intro rem
  induction rem with
  | zero =>
    intro j cmp h
    simp only [bruteInner]
    constructor
    · intro _ k h1 h2; omega
    · intro _; omega
  | succ r ih =>
    intro j cmp h
    simp only [bruteInner]
    by_cases hc : charAt text (i + j) = charAt pattern j
    · simp only [hc, ne_eq, not_true_eq_false, if_false]
      rw [ih (j + 1) (cmp + 1) (by omega)]
      constructor
      · intro H k h1 h2
        by_cases hkj : k = j
        · subst hkj; exact hc
        · exact H k (by omega) h2
      · intro H k h1 h2
        exact H k (by omega) h2
    · simp only [hc, ne_eq, not_false_eq_true, if_true]
      constructor
      · intro H; omega
      · intro H; exact absurd (H j (le_refl _) (by omega)) hc

theorem bruteInner_occurs (text pattern : CString) (i : Nat)
    (hi : i + pattern.length ≤ text.length) (cmp : Nat) :
    (bruteInner text pattern i pattern.length 0 cmp).1 = pattern.length ↔
      OccursAt text pattern i := by
  rw [bruteInner_fst text pattern i pattern.length 0 cmp (by omega), occursAt_iff]
  constructor
  · intro H; exact ⟨hi, fun k hk => H k (Nat.zero_le _) hk⟩
  · intro H k _ hk; exact H.2 k hk

theorem occFrom_succ (text pattern : CString) (i rem : Nat) :
    occFrom text pattern i (rem + 1) =
      (if OccursAt text pattern i then [(i : Int)] else []) ++ occFrom text pattern (i + 1) rem := by
  unfold occFrom
  rw [List.range'_succ, List.filter_cons]
  by_cases h : OccursAt text pattern i <;> simp [h]

theorem bruteOuter_positions (text pattern : CString) :
    ∀ (rem i : Nat) (pos : List Int) (cmp : Nat), i + rem ≤ text.length - pattern.length + 1 →
      pattern.length ≤ text.length →
      (bruteOuter text pattern rem i pos cmp).1 = pos ++ occFrom text pattern i rem := by
  intro rem
  induction rem with
  | zero => intro i pos cmp _ _; simp [bruteOuter, occFrom]
  | succ r ih =>
    intro i pos cmp h hm
    simp only [bruteOuter]
    rw [occFrom_succ]
    have hocc := bruteInner_occurs text pattern i (by omega) cmp
    by_cases ho : OccursAt text pattern i
    · rw [if_pos (hocc.mpr ho), ih (i + 1) _ _ (by omega) hm, if_pos ho]
      simp
    · rw [if_neg (fun hh => ho (hocc.mp hh)), ih (i + 1) _ _ (by omega) hm, if_neg ho]
      simp

theorem bruteForceSearch_positions (text pattern : CString) (hp : pattern.length ≠ 0)
    (hm : pattern.length ≤ text.length) :
    (bruteForceSearch text pattern).positions = occurrences text pattern := by
  unfold bruteForceSearch occurrences
  rw [if_neg (by omega)]
  simp only
  rw [bruteOuter_positions text pattern _ 0 [] 0 (by omega) hm]
  simp

/-! ## Lemmas on `sundaySearch` -/

theorem occFrom_zero (text pattern : CString) (i : Nat) : occFrom text pattern i 0 = [] := by
  simp [occFrom]

theorem occFrom_skip (text pattern : CString) :
    ∀ (d a len : Nat), (∀ p, a ≤ p → p < a + d → ¬ OccursAt text pattern p) →
      occFrom text pattern a len = occFrom text pattern (a + d) (len - d) := by
  intro d
  induction d with
  | zero => intro a len _; simp
  | succ d ih =>
    intro a len h
    cases len with
    | zero => simp [occFrom_zero]
    | succ l =>
      rw [occFrom_succ, if_neg (h a (le_refl _) (by omega)), List.nil_append,
        ih (a + 1) l (fun p h1 h2 => h p (by omega) (by omega))]
      have e1 : a + 1 + d = a + (d + 1) := by omega
      have e2 : l + 1 - (d + 1) = l - d := by omega
      rw [e1, e2]

theorem sundayInner_fst (text pattern : CString) (i : Nat) :
    ∀ (rem j cmp : Nat), rem + j = pattern.length →
      ((sundayInner text pattern i rem j cmp).1 = pattern.length ↔
        ∀ k, j ≤ k → k < pattern.length → charAt text (i + k) = charAt pattern k) := by
  intro rem
  induction rem with
  | zero =>
    intro j cmp h
    simp only [sundayInner]
    constructor
    · intro _ k h1 h2; omega
    · intro _; omega
  | succ r ih =>
    intro j cmp h
    simp only [sundayInner]
    by_cases hc : charAt text (i + j) = charAt pattern j
    · rw [if_pos hc, ih (j + 1) (cmp + 1) (by omega)]
      constructor
      · intro H k h1 h2
        by_cases hkj : k = j
        · subst hkj; exact hc
        · exact H k (by omega) h2
      · intro H k h1 h2
        exact H k (by omega) h2
    · rw [if_neg hc]
      constructor
      · intro H; simp only at H; omega
      · intro H; exact absurd (H j (le_refl _) (by omega)) hc

theorem sundayInner_snd (text pattern : CString) (i : Nat) :
    ∀ (rem j cmp : Nat), cmp ≤ (sundayInner text pattern i rem j cmp).2 := by
  intro rem
  induction rem with
  | zero => intro j cmp; exact le_refl _
  | succ r ih =>
    intro j cmp
    simp only [sundayInner]
    split
    · exact le_trans (Nat.le_succ _) (ih (j + 1) (cmp + 1))
    · exact le_refl _

theorem sundayInner_occurs (text pattern : CString) (i : Nat)
    (hi : i + pattern.length ≤ text.length) (cmp : Nat) :
    (sundayInner text pattern i pattern.length 0 cmp).1 = pattern.length ↔
      OccursAt text pattern i := by
  rw [sundayInner_fst text pattern i pattern.length 0 cmp (by omega), occursAt_iff]
  constructor
  · intro H; exact ⟨hi, fun k hk => H k (Nat.zero_le _) hk⟩
  · intro H k _ hk; exact H.2 k hk

theorem sundayTableLoop_none (pattern : CString) :
    ∀ (rem i : Nat) (table : ShiftTable) (c : CChar),
      sundayTableLoop pattern rem i table c = none →
        ∀ k, i ≤ k → k < i + rem → charAt pattern k ≠ c := by
  intro rem
  induction rem with
  | zero => intro i table c _ k h1 h2; omega
  | succ r ih =>
    intro i table c h k h1 h2
    simp only [sundayTableLoop] at h
    by_cases hk : k = i
    · subst hk
      intro hc
      have h0 := ih (k + 1) _ c h
      -- the entry written at `k` can only be overwritten by another entry
      have : ∀ (rem j : Nat) (t : ShiftTable), t c ≠ none →
          sundayTableLoop pattern rem j t c ≠ none := by
        intro rem
        induction rem with
        | zero => intro j t ht; simpa [sundayTableLoop] using ht
        | succ r2 ih2 =>
          intro j t ht
          simp only [sundayTableLoop]
          apply ih2
          by_cases hcj : c = charAt pattern j
          · simp [hcj]
          · simpa [hcj] using ht
      exact this r (k + 1) _ (by simp [hc]) h
    · exact ih (i + 1) _ c h k (by omega) (by omega)

theorem sundayTableLoop_some (pattern : CString) :
    ∀ (rem i : Nat) (table : ShiftTable) (c : CChar) (s : Nat),
      sundayTableLoop pattern rem i table c = some s →
        (table c = some s ∧ ∀ k, i ≤ k → k < i + rem → charAt pattern k ≠ c) ∨
        (∃ r, i ≤ r ∧ r < i + rem ∧ s = pattern.length - r ∧ charAt pattern r = c ∧
          ∀ k, r < k → k < i + rem → charAt pattern k ≠ c) := by
  intro rem
  induction rem with
  | zero =>
    intro i table c s h
    left
    exact ⟨by simpa [sundayTableLoop] using h, fun k h1 h2 => by omega⟩
  | succ r ih =>
    intro i table c s h
    simp only [sundayTableLoop] at h
    rcases ih (i + 1) _ c s h with ⟨h1, h2⟩ | ⟨q, hq1, hq2, hq3, hq4, hq5⟩
    · by_cases hc : c = charAt pattern i
      · right
        rw [if_pos hc] at h1
        refine ⟨i, le_refl _, by omega, (Option.some.inj h1).symm, hc.symm, ?_⟩
        intro k hk1 hk2
        exact h2 k (by omega) (by omega)
      · left
        rw [if_neg hc] at h1
        refine ⟨h1, fun k hk1 hk2 => ?_⟩
        by_cases hki : k = i
        · subst hki; exact fun e => hc e.symm
        · exact h2 k (by omega) (by omega)
    · right
      exact ⟨q, by omega, by omega, hq3, hq4, fun k hk1 hk2 => hq5 k hk1 (by omega)⟩

/-- The shift taken by `sundaySearch` after the window at `i` skips no occurrence. -/
theorem sunday_shift_safe (text pattern : CString) (i : Nat) :
    let shift := match buildSundayTable pattern (charAt text (i + pattern.length)) with
      | some s => s
      | none => pattern.length + 1
    1 ≤ shift ∧ ∀ p, i + 1 ≤ p → p < i + 1 + (shift - 1) → ¬ OccursAt text pattern p := by
  intro shift
  -- an occurrence at `p` in `(i, i + m]` puts `text[i + m]` at index `i + m - p` of the pattern
  have key : ∀ p, i + 1 ≤ p → p ≤ i + pattern.length → OccursAt text pattern p →
      charAt pattern (i + pattern.length - p) = charAt text (i + pattern.length) := by
    intro p h1 h2 ho
    have := ((occursAt_iff text pattern p).mp ho).2 (i + pattern.length - p) (by omega)
    rw [← this]
    congr 1
    omega
  cases hT : buildSundayTable pattern (charAt text (i + pattern.length)) with
  | none =>
    have hs : shift = pattern.length + 1 := by simp only [shift, hT]
    have habs := sundayTableLoop_none pattern pattern.length 0 _ _ hT
    refine ⟨by omega, fun p h1 h2 ho => ?_⟩
    exact habs (i + pattern.length - p) (Nat.zero_le _) (by omega) (key p h1 (by omega) ho)
  | some s =>
    have hs : shift = s := by simp only [shift, hT]
    rcases sundayTableLoop_some pattern pattern.length 0 _ _ s hT with ⟨h1, _⟩ | ⟨r, _, hr2, hr3, _, hr5⟩
    · exact absurd h1 (by simp)
    · refine ⟨by omega, fun p h1 h2 ho => ?_⟩
      exact hr5 (i + pattern.length - p) (by omega) (by omega) (key p h1 (by omega) ho)

theorem sundayLoop_positions (text pattern : CString)
    (hm : pattern.length ≤ text.length) :
    ∀ (fuel i : Nat) (pos : List Int) (cmp : Nat),
      text.length - pattern.length + 1 - i < fuel →
      ∃ cmp', sundayLoop text pattern (buildSundayTable pattern) text.length pattern.length
          fuel i pos cmp
        = some (pos ++ occFrom text pattern i (text.length - pattern.length + 1 - i), cmp') ∧
        cmp ≤ cmp' ∧ (i + pattern.length < text.length → cmp + 1 ≤ cmp') := by
  intro fuel
  induction fuel with
  | zero => intro i pos cmp h; omega
  | succ f ih =>
    intro i pos cmp h
    simp only [sundayLoop]
    by_cases hi : i ≤ text.length - pattern.length
    · rw [if_pos hi]
      have hocc := sundayInner_occurs text pattern i (by omega) cmp
      have hpos : (if (sundayInner text pattern i pattern.length 0 cmp).1 = pattern.length
            then pos ++ [(i : Int)] else pos)
          = pos ++ (if OccursAt text pattern i then [(i : Int)] else []) := by
        by_cases ho : OccursAt text pattern i
        · rw [if_pos (hocc.mpr ho), if_pos ho]
        · rw [if_neg (fun hh => ho (hocc.mp hh)), if_neg ho, List.append_nil]
      rw [hpos]
      have hlen : text.length - pattern.length + 1 - i = (text.length - pattern.length - i) + 1 := by
        omega
      rw [hlen, occFrom_succ]
      by_cases hend : i + pattern.length ≥ text.length
      · rw [if_pos hend]
        have : text.length - pattern.length - i = 0 := by omega
        rw [this, occFrom_zero, List.append_nil]
        exact ⟨_, rfl, sundayInner_snd text pattern i _ _ _, fun hh => by omega⟩
      · rw [if_neg hend]
        have hsafe := sunday_shift_safe text pattern i
        simp only at hsafe
        obtain ⟨hs1, hs2⟩ := hsafe
        generalize hsh : (match buildSundayTable pattern (charAt text (i + pattern.length)) with
          | some s => s
          | none => pattern.length + 1) = shift at hs1 hs2
        obtain ⟨cmp', hcmp, hc1, _⟩ := ih (i + shift)
          (pos ++ (if OccursAt text pattern i then [(i : Int)] else []))
          ((sundayInner text pattern i pattern.length 0 cmp).2 + 1) (by omega)
        have hc0 := sundayInner_snd text pattern i pattern.length 0 cmp
        refine ⟨cmp', ?_, by omega, fun _ => by omega⟩
        rw [hcmp, occFrom_skip text pattern (shift - 1) (i + 1) _ hs2]
        have e1 : i + 1 + (shift - 1) = i + shift := by omega
        have e2 : text.length - pattern.length - i - (shift - 1)
            = text.length - pattern.length + 1 - (i + shift) := by omega
        rw [e1, e2, List.append_assoc]
    · rw [if_neg hi]
      have : text.length - pattern.length + 1 - i = 0 := by omega
      rw [this, occFrom_zero, List.append_nil]
      exact ⟨_, rfl, le_refl _, fun hh => by omega⟩

theorem sundaySearch_positions (text pattern : CString) (fuel : Nat) (hf : text.length < fuel) :
    ∃ r, sundaySearch fuel text pattern = some r ∧
      r.positions = (bruteForceSearch text pattern).positions ∧
      (pattern.length ≠ 0 → pattern.length < text.length → 1 ≤ r.characterComparisons) := by
  unfold sundaySearch
  by_cases hd : pattern.length = 0 ∨ text.length < pattern.length
  · rw [if_pos hd]
    refine ⟨_, rfl, ?_, fun h1 h2 => by omega⟩
    unfold bruteForceSearch
    rw [if_pos hd]
  · rw [if_neg hd]
    have hp : pattern.length ≠ 0 := by omega
    have hm : pattern.length ≤ text.length := by omega
    obtain ⟨cmp', h, _, hc⟩ := sundayLoop_positions text pattern hm fuel 0 [] 0 (by omega)
    rw [h]
    refine ⟨_, rfl, ?_, fun _ h2 => by simp only; exact hc (by omega)⟩
    rw [bruteForceSearch_positions text pattern hp hm]
    simp [occurrences]

/-! ## Lemmas on `kmpSearch` -/

theorem take_succ_charAt (s : CString) (k : Nat) (h : k < s.length) :
    s.take (k + 1) = s.take k ++ [charAt s k] := by
  rw [List.take_succ, List.getElem?_eq_getElem h, charAt_eq_getElem s k h]
  rfl

theorem take_succ_suffix_iff (pattern s : CString) (c : CChar) (k : Nat)
    (hk : k < pattern.length) :
    pattern.take (k + 1) <:+ s ++ [c] ↔ pattern.take k <:+ s ∧ charAt pattern k = c := by
  rw [take_succ_charAt pattern k hk, List.suffix_concat_iff]
  constructor
  · rintro (h | ⟨t, h1, h2⟩)
    · simp at h
    · have := List.append_inj' h1 rfl
      obtain ⟨e1, e2⟩ := this
      rw [e1]
      exact ⟨h2, by simpa using e2⟩
  · rintro ⟨h1, h2⟩
    right
    exact ⟨pattern.take k, by rw [h2], h1⟩

theorem take_suffix_take (pattern s : CString) (k j : Nat) (hkj : k ≤ j)
    (hj : j ≤ pattern.length) (h1 : pattern.take k <:+ s) (h2 : pattern.take j <:+ s) :
    pattern.take k <:+ pattern.take j := by
  apply List.suffix_of_suffix_length_le h1 h2
  simp only [List.length_take]
  omega

theorem take_suffix_tail (pattern : CString) (k j : Nat) (hkj : k < j)
    (hj : j ≤ pattern.length) (h : pattern.take k <:+ pattern.take j) :
    pattern.take k <:+ (pattern.take j).tail := by
  apply List.suffix_of_suffix_length_le h (List.tail_suffix _)
  simp only [List.length_take, List.length_tail]
  omega

theorem kmpFallback_spec (pattern : CString) (table : List Nat) (s : CString) (c : CChar) :
    ∀ (fuel j cmp : Nat), j < fuel → j ≤ pattern.length - 1 → pattern.take j <:+ s →
      (∀ k, k < pattern.length → pattern.take (k + 1) <:+ s ++ [c] → k ≤ j) →
      TableOk pattern table j →
      ∃ j' cmp', kmpFallback pattern table c fuel j cmp = some (j', cmp') ∧
        j' ≤ j ∧ pattern.take j' <:+ s ∧
        (∀ k, k < pattern.length → pattern.take (k + 1) <:+ s ++ [c] → k ≤ j') ∧
        (j' = 0 ∨ charAt pattern j' = c) ∧ cmp ≤ cmp' := by
  intro fuel
  induction fuel with
  | zero => intro j cmp h; omega
  | succ f ih =>
    intro j cmp hf hj hsuf hcand htab
    simp only [kmpFallback]
    by_cases hc : 0 < j ∧ charAt pattern j ≠ c
    · rw [if_pos hc]
      obtain ⟨hj0, hne⟩ := hc
      obtain ⟨hb1, hb2, hb3⟩ := htab j hj0 (le_refl _)
      have hlt : table.getD (j - 1) 0 < j := by
        have := hb2.length_le
        simp only [List.length_take, List.length_tail] at this
        omega
      have hcand2 : ∀ k, k < pattern.length → pattern.take (k + 1) <:+ s ++ [c] →
          k ≤ table.getD (j - 1) 0 := by
        intro k hk hks
        have hkj := hcand k hk hks
        obtain ⟨hk1, hk2⟩ := (take_succ_suffix_iff pattern s c k hk).mp hks
        have hkne : k ≠ j := fun e => hne (e ▸ hk2)
        apply hb3 k (by omega)
        apply take_suffix_tail pattern k j (by omega) (by omega)
        exact take_suffix_take pattern s k j hkj (by omega) hk1 hsuf
      have htab2 : TableOk pattern table (table.getD (j - 1) 0) :=
        fun q h1 h2 => htab q h1 (by omega)
      obtain ⟨j', cmp', h1, h2, h3, h4, h5, h6⟩ :=
        ih (table.getD (j - 1) 0) (cmp + 1) (by omega) (by omega)
          ((hb2.trans (List.tail_suffix _)).trans hsuf) hcand2 htab2
      exact ⟨j', cmp', h1, by omega, h3, h4, h5, by omega⟩
    · rw [if_neg hc]
      refine ⟨j, cmp, rfl, le_refl _, hsuf, hcand, ?_, le_refl _⟩
      by_cases hj0 : j = 0
      · left; exact hj0
      · right
        by_contra hne
        exact hc ⟨by omega, hne⟩

/-- One iteration of the KMP automaton: fallback, then comparison and increment. -/
theorem kmpStep_spec (pattern : CString) (table : List Nat) (s : CString) (c : CChar)
    (hp : pattern.length ≠ 0) (fuel j cmp : Nat) (hf : j < fuel)
    (hj : Lps pattern (pattern.length - 1) s j) (htab : TableOk pattern table j) :
    ∃ j' cmp', kmpFallback pattern table c fuel j cmp = some (j', cmp') ∧ j' ≤ j ∧ cmp ≤ cmp' ∧
      Lps pattern pattern.length (s ++ [c]) (if charAt pattern j' = c then j' + 1 else j') := by
  obtain ⟨hj1, hj2, hj3⟩ := hj
  have hcand : ∀ k, k < pattern.length → pattern.take (k + 1) <:+ s ++ [c] → k ≤ j := by
    intro k hk hks
    exact hj3 k (by omega) ((take_succ_suffix_iff pattern s c k hk).mp hks).1
  obtain ⟨j', cmp', h1, h2, h3, h4, h5, h6⟩ :=
    kmpFallback_spec pattern table s c fuel j cmp hf hj1 hj2 hcand htab
  refine ⟨j', cmp', h1, h2, h6, ?_⟩
  by_cases hc : charAt pattern j' = c
  · rw [if_pos hc]
    refine ⟨by omega, (take_succ_suffix_iff pattern s c j' (by omega)).mpr ⟨h3, hc⟩, ?_⟩
    intro k' hk' hks
    cases k' with
    | zero => omega
    | succ k => have := h4 k (by omega) hks; omega
  · rw [if_neg hc]
    have hj0 : j' = 0 := by
      rcases h5 with h | h
      · exact h
      · exact absurd h hc
    subst hj0
    refine ⟨Nat.zero_le _, by simp, ?_⟩
    intro k' hk' hks
    cases k' with
    | zero => omega
    | succ k =>
      have hk0 := h4 k (by omega) hks
      have : k = 0 := by omega
      subst this
      exact absurd ((take_succ_suffix_iff pattern s c 0 (by omega)).mp hks).2 hc

theorem getD_set_self (l : List Nat) (i v : Nat) (h : i < l.length) :
    (l.set i v).getD i 0 = v := by
  simp [List.getD_eq_getElem?_getD, List.getElem?_set, h]

theorem getD_set_ne (l : List Nat) (i j v : Nat) (h : i ≠ j) :
    (l.set i v).getD j 0 = l.getD j 0 := by
  simp [List.getD_eq_getElem?_getD, List.getElem?_set_ne h]

theorem lps_length_le (pattern s : CString) (bound k : Nat) (hb : bound ≤ pattern.length)
    (h : Lps pattern bound s k) : k ≤ s.length := by
  have := h.2.1.length_le
  have hk := h.1
  simp only [List.length_take] at this
  omega

theorem tail_take_succ (pattern : CString) (i : Nat) (hi1 : 1 ≤ i) (hi : i < pattern.length) :
    (pattern.take i).tail ++ [charAt pattern i] = (pattern.take (i + 1)).tail := by
  rw [take_succ_charAt pattern i hi, List.tail_append_of_ne_nil]
  intro h
  have := congrArg List.length h
  simp only [List.length_take, List.length_nil] at this
  omega

theorem kmpPrefixLoop_spec (pattern : CString) (fuel : Nat) (hf : pattern.length ≤ fuel) :
    ∀ (rem i length : Nat) (table : List Nat) (cmp : Nat),
      i + rem = pattern.length → 1 ≤ i → table.length = pattern.length →
      Lps pattern (pattern.length - 1) (pattern.take i).tail length →
      TableOk pattern table i →
      ∃ table' cmp', kmpPrefixLoop pattern fuel rem i length table cmp = some (table', cmp') ∧
        TableOk pattern table' pattern.length ∧ table'.length = pattern.length := by
  intro rem
  induction rem with
  | zero =>
    intro i length table cmp hi _ hlen _ htab
    have : i = pattern.length := by omega
    subst this
    exact ⟨table, cmp, rfl, htab, hlen⟩
  | succ r ih =>
    intro i length table cmp hi hi1 hlen hL htab
    have hLi : length ≤ i - 1 := by
      have := lps_length_le pattern _ _ _ (by omega) hL
      simp only [List.length_tail, List.length_take] at this
      omega
    obtain ⟨j', cmp', h1, _, _, h4⟩ :=
      kmpStep_spec pattern table (pattern.take i).tail (charAt pattern i) (by omega) fuel length
        cmp (by omega) hL (fun q hq1 hq2 => htab q hq1 (by omega))
    simp only [kmpPrefixLoop, h1]
    rw [tail_take_succ pattern i hi1 (by omega)] at h4
    generalize (if charAt pattern j' = charAt pattern i then j' + 1 else j') = L at h4
    have hLle : L ≤ i := by
      have := lps_length_le pattern _ _ _ (le_refl _) h4
      simp only [List.length_tail, List.length_take] at this
      omega
    apply ih (i + 1) L (table.set i L) (cmp' + 1) (by omega) (by omega) (by simp [hlen])
    · exact ⟨by omega, h4.2.1, fun k' hk' hs => h4.2.2 k' (by omega) hs⟩
    · intro q hq1 hq2
      by_cases hq : q = i + 1
      · subst hq
        rw [Nat.add_sub_cancel, getD_set_self table i L (by omega)]
        exact ⟨by omega, h4.2.1, fun k' hk' hs => h4.2.2 k' (by omega) hs⟩
      · rw [getD_set_ne table i (q - 1) L (by omega)]
        exact htab q hq1 (by omega)

theorem buildKmpPrefix_spec (pattern : CString) (fuel cmp : Nat) (hp : pattern.length ≠ 0)
    (hf : pattern.length ≤ fuel) :
    ∃ table cmp', buildKmpPrefix fuel pattern cmp = some (table, cmp') ∧
      TableOk pattern table pattern.length ∧ table.length = pattern.length := by
  unfold buildKmpPrefix
  rw [if_neg hp]
  have h0 : Lps pattern (pattern.length - 1) (pattern.take 1).tail 0 := by
    refine ⟨Nat.zero_le _, by simp, ?_⟩
    intro k' hk' hs
    have := hs.length_le
    simp only [List.length_take, List.length_tail] at this
    omega
  apply kmpPrefixLoop_spec pattern fuel hf (pattern.length - 1) 1 0 _ cmp (by omega) (le_refl _)
    (by simp) h0
  intro q hq1 hq2
  have : q = 1 := by omega
  subst this
  rw [getD_set_self _ 0 0 (by simp; omega)]
  exact h0

theorem take_succ_text (text : CString) (i : Nat) (hi : i < text.length) :
    text.take i ++ [charAt text i] = text.take (i + 1) :=
  (take_succ_charAt text i hi).symm

theorem kmpScan_spec (text pattern : CString) (table : List Nat) (fuel : Nat)
    (hp : pattern.length ≠ 0) (hf : pattern.length ≤ fuel)
    (htab : TableOk pattern table pattern.length) :
    ∀ (rem i j : Nat) (pos : List Int) (cmp : Nat),
      i + rem = text.length → Lps pattern (pattern.length - 1) (text.take i) j →
      ∃ cmp', kmpScan text pattern table fuel rem i j pos cmp
        = some (pos ++ kmpEnds text pattern i rem, cmp') ∧ cmp + rem ≤ cmp' := by
  intro rem
  induction rem with
  | zero =>
    intro i j pos cmp _ _
    exact ⟨cmp, by simp [kmpScan, kmpEnds], le_refl _⟩
  | succ r ih =>
    intro i j pos cmp hi hj
    obtain ⟨j', cmp', h1, _, hc, h4⟩ :=
      kmpStep_spec pattern table (text.take i) (charAt text i) hp fuel j cmp
        (by have := hj.1; omega) hj (fun q hq1 hq2 => htab q hq1 (by have := hj.1; omega))
    simp only [kmpScan, h1, kmpEnds]
    rw [take_succ_text text i (by omega)] at h4
    generalize (if charAt pattern j' = charAt text i then j' + 1 else j') = J at h4
    obtain ⟨hJ1, hJ2, hJ3⟩ := h4
    by_cases hJ : J = pattern.length
    · rw [if_pos hJ]
      have hsuf : pattern <:+ text.take (i + 1) := by
        have := hJ2
        rw [hJ, List.take_length] at this
        exact this
      rw [if_pos hsuf]
      obtain ⟨hb1, hb2, hb3⟩ := htab pattern.length (by omega) (le_refl _)
      rw [List.take_length] at hb2 hb3
      have hnew : Lps pattern (pattern.length - 1) (text.take (i + 1))
          (table.getD (J - 1) 0) := by
        rw [hJ]
        refine ⟨hb1, (hb2.trans (List.tail_suffix _)).trans hsuf, ?_⟩
        intro k' hk' hs
        apply hb3 k' hk'
        have h5 := take_suffix_take pattern (text.take (i + 1)) k' pattern.length (by omega)
          (le_refl _) hs (by rw [List.take_length]; exact hsuf)
        have h6 := take_suffix_tail pattern k' pattern.length (by omega) (le_refl _) h5
        rw [List.take_length] at h6
        exact h6
      obtain ⟨cmp'', h, hc2⟩ := ih (i + 1) (table.getD (J - 1) 0)
        (pos ++ [(i : Int) - (J : Int) + 1]) (cmp' + 1) (by omega) hnew
      refine ⟨cmp'', ?_, by omega⟩
      rw [h, hJ, List.append_assoc]
    · rw [if_neg hJ]
      have hns : ¬ pattern <:+ text.take (i + 1) := by
        intro hs
        have := hJ3 pattern.length (le_refl _) (by rw [List.take_length]; exact hs)
        omega
      rw [if_neg hns, List.nil_append]
      obtain ⟨cmp'', h, hc2⟩ := ih (i + 1) J pos (cmp' + 1) (by omega)
        ⟨by omega, hJ2, fun k' hk' hs => hJ3 k' (by omega) hs⟩
      exact ⟨cmp'', h, by omega⟩

theorem suffix_take_iff_occursAt (text pattern : CString) (p : Nat)
    (h : p + pattern.length ≤ text.length) :
    pattern <:+ text.take (p + pattern.length) ↔ OccursAt text pattern p := by
  rw [List.take_add]
  unfold OccursAt
  have hlen : ((text.drop p).take pattern.length).length = pattern.length := by
    simp only [List.length_take, List.length_drop]; omega
  constructor
  · intro hs
    have h1 := List.suffix_of_suffix_length_le hs (List.suffix_append _ _) (by omega)
    exact ⟨h, (h1.eq_of_length hlen.symm).symm⟩
  · rintro ⟨_, h2⟩
    rw [h2]
    exact List.suffix_append _ _

theorem kmpEnds_skip (text pattern : CString) :
    ∀ (d i rem : Nat), i + d + 1 ≤ pattern.length →
      kmpEnds text pattern i (d + rem) = kmpEnds text pattern (i + d) rem := by
  intro d
  induction d with
  | zero => intro i rem _; simp
  | succ d ih =>
    intro i rem h
    have e : d + 1 + rem = (d + rem) + 1 := by omega
    rw [e, kmpEnds]
    have hns : ¬ pattern <:+ text.take (i + 1) := by
      intro hs
      have := hs.length_le
      simp only [List.length_take] at this
      omega
    rw [if_neg hns, List.nil_append, ih (i + 1) rem (by omega)]
    congr 1
    omega

theorem kmpEnds_eq_occFrom (text pattern : CString) (hp : pattern.length ≠ 0) :
    ∀ (rem p : Nat), p + rem ≤ text.length - pattern.length + 1 →
      pattern.length ≤ text.length →
      kmpEnds text pattern (p + pattern.length - 1) rem = occFrom text pattern p rem := by
  intro rem
  induction rem with
  | zero => intro p _ _; simp [kmpEnds, occFrom_zero]
  | succ r ih =>
    intro p h hm
    rw [kmpEnds, occFrom_succ]
    have e1 : p + pattern.length - 1 + 1 = p + pattern.length := by omega
    have e2 : p + pattern.length = p + 1 + pattern.length - 1 := by omega
    have e3 : ((p + pattern.length - 1 : Nat) : Int) - (pattern.length : Int) + 1 = (p : Int) := by
      omega
    rw [e1, e3, e2, ih (p + 1) (by omega) hm]
    have := suffix_take_iff_occursAt text pattern p (by omega)
    by_cases ho : OccursAt text pattern p
    · rw [if_pos ho, if_pos (by rw [← e2]; exact this.mpr ho)]
    · rw [if_neg ho, if_neg (by rw [← e2]; exact fun hh => ho (this.mp hh))]

theorem kmpSearch_positions (text pattern : CString) (fuel : Nat)
    (hf : pattern.length ≤ fuel) :
    ∃ r, kmpSearch fuel text pattern = some r ∧
      r.positions = (bruteForceSearch text pattern).positions ∧
      (¬ (pattern.length = 0 ∨ text.length < pattern.length) → 1 ≤ r.characterComparisons) := by
  unfold kmpSearch
  by_cases hd : pattern.length = 0 ∨ text.length < pattern.length
  · rw [if_pos hd]
    refine ⟨_, rfl, ?_, fun h => absurd hd h⟩
    unfold bruteForceSearch
    rw [if_pos hd]
  · rw [if_neg hd]
    have hp : pattern.length ≠ 0 := by omega
    have hm : pattern.length ≤ text.length := by omega
    obtain ⟨table, cmpT, hT, htab, _⟩ := buildKmpPrefix_spec pattern fuel 0 hp hf
    have h0 : Lps pattern (pattern.length - 1) (text.take 0) 0 := by
      refine ⟨Nat.zero_le _, by simp, ?_⟩
      intro k' hk' hs
      have := hs.length_le
      simp only [List.length_take] at this
      omega
    obtain ⟨cmpS, hS, hcS⟩ := kmpScan_spec text pattern table fuel hp hf htab text.length 0 0
      [] 0 (by omega) h0
    simp only [hT, hS]
    refine ⟨_, rfl, ?_, fun _ => by simp only; omega⟩
    rw [bruteForceSearch_positions text pattern hp hm]
    simp only [List.nil_append, occurrences]
    have e : text.length = (pattern.length - 1) + (text.length - pattern.length + 1) := by omega
    have := kmpEnds_skip text pattern (pattern.length - 1) 0
      (text.length - pattern.length + 1) (by omega)
    rw [← e] at this
    rw [this]
    have h2 := kmpEnds_eq_occFrom text pattern hp (text.length - pattern.length + 1) 0
      (by omega) hm
    rw [← h2]
    congr 1
    omega

/-! ## Recorded positions are occurrences; comparison counters -/

theorem validPos_of_occursAt (text pattern : CString) (i : Nat)
    (h : OccursAt text pattern i) : ValidPos text pattern (i : Int) := by
  obtain ⟨h1, h2⟩ := (occursAt_iff text pattern i).mp h
  refine ⟨Int.natCast_nonneg i, by omega, fun k hk => ?_⟩
  rw [Int.toNat_natCast]
  exact h2 k hk

theorem validPos_of_mem_occFrom (text pattern : CString) (i rem : Nat) (p : Int)
    (h : p ∈ occFrom text pattern i rem) : ValidPos text pattern p := by
  unfold occFrom at h
  obtain ⟨q, hq, rfl⟩ := List.mem_map.mp h
  have := (List.mem_filter.mp hq).2
  exact validPos_of_occursAt text pattern q (of_decide_eq_true this)

theorem bruteInner_snd (text pattern : CString) (i : Nat) :
    ∀ (rem j cmp : Nat), cmp ≤ (bruteInner text pattern i rem j cmp).2 ∧
      (1 ≤ rem → cmp + 1 ≤ (bruteInner text pattern i rem j cmp).2) := by
  intro rem
  induction rem with
  | zero => intro j cmp; exact ⟨le_refl _, fun h => by omega⟩
  | succ r ih =>
    intro j cmp
    simp only [bruteInner]
    split
    · exact ⟨Nat.le_succ _, fun _ => le_refl _⟩
    · have := (ih (j + 1) (cmp + 1)).1
      exact ⟨by omega, fun _ => this⟩

theorem bruteOuter_snd (text pattern : CString) (hp : pattern.length ≠ 0) :
    ∀ (rem i : Nat) (pos : List Int) (cmp : Nat),
      cmp ≤ (bruteOuter text pattern rem i pos cmp).2 ∧
      (1 ≤ rem → cmp + 1 ≤ (bruteOuter text pattern rem i pos cmp).2) := by
  intro rem
  induction rem with
  | zero => intro i pos cmp; exact ⟨le_refl _, fun h => by omega⟩
  | succ r ih =>
    intro i pos cmp
    simp only [bruteOuter]
    have h1 := (bruteInner_snd text pattern i pattern.length 0 cmp).2 (by omega)
    split
    · have := (ih (i + 1) (pos ++ [(i : Int)]) (bruteInner text pattern i pattern.length 0 cmp).2).1
      exact ⟨by omega, fun _ => by omega⟩
    · have := (ih (i + 1) pos (bruteInner text pattern i pattern.length 0 cmp).2).1
      exact ⟨by omega, fun _ => by omega⟩

theorem bruteForceSearch_comparisons (text pattern : CString) (hp : pattern.length ≠ 0)
    (hm : pattern.length ≤ text.length) :
    1 ≤ (bruteForceSearch text pattern).characterComparisons := by
  unfold bruteForceSearch
  rw [if_neg (by omega)]
  exact (bruteOuter_snd text pattern hp _ 0 [] 0).2 (by omega)

theorem rkVerify_spec (text pattern : CString) (i : Nat) :
    ∀ (rem j cmp : Nat), rem + j = pattern.length →
      ((rkVerify text pattern i rem j cmp).1 = true →
        (∀ k, j ≤ k → k < pattern.length → charAt text (i + k) = charAt pattern k) ∧
        cmp + rem ≤ (rkVerify text pattern i rem j cmp).2) ∧
      cmp ≤ (rkVerify text pattern i rem j cmp).2 := by
  intro rem
  induction rem with
  | zero =>
    intro j cmp h
    simp only [rkVerify]
    exact ⟨fun _ => ⟨fun k h1 h2 => by omega, le_refl _⟩, le_refl _⟩
  | succ r ih =>
    intro j cmp h
    simp only [rkVerify]
    by_cases hc : charAt text (i + j) = charAt pattern j
    · simp only [hc, ne_eq, not_true_eq_false, if_false]
      obtain ⟨h1, h2⟩ := ih (j + 1) (cmp + 1) (by omega)
      refine ⟨fun ht => ?_, by omega⟩
      obtain ⟨h3, h4⟩ := h1 ht
      refine ⟨fun k hk1 hk2 => ?_, by omega⟩
      by_cases hkj : k = j
      · subst hkj; exact hc
      · exact h3 k (by omega) hk2
    · simp only [hc, ne_eq, not_false_eq_true, if_true]
      exact ⟨fun ht => by simp at ht, Nat.le_succ _⟩

theorem rkLoop_sound (text pattern : CString) (base modulus highestPower patternHash : Int)
    (hp : pattern.length ≠ 0) (hm : pattern.length ≤ text.length) :
    ∀ (rem i : Nat) (textHash : Int) (pos : List Int) (cmp : Nat),
      i + rem ≤ text.length - pattern.length + 1 →
      (∀ p ∈ pos, ValidPos text pattern p) → pos.length ≤ cmp →
      (∀ p ∈ (rkLoop text pattern base modulus highestPower patternHash text.length
          pattern.length rem i textHash pos cmp).1, ValidPos text pattern p) ∧
      (rkLoop text pattern base modulus highestPower patternHash text.length
          pattern.length rem i textHash pos cmp).1.length ≤
        (rkLoop text pattern base modulus highestPower patternHash text.length
          pattern.length rem i textHash pos cmp).2 := by
  intro rem
  induction rem with
  | zero =>
    intro i textHash pos cmp _ hv hl
    exact ⟨hv, hl⟩
  | succ r ih =>
    intro i textHash pos cmp hi hv hl
    simp only [rkLoop]
    apply ih (i + 1) _ _ _ (by omega)
    · intro p hpm
      by_cases hh : patternHash = textHash
      · rw [if_pos hh] at hpm
        by_cases hvf : (rkVerify text pattern i pattern.length 0 cmp).1 = true
        · rw [if_pos hvf] at hpm
          rcases List.mem_append.mp hpm with h | h
          · exact hv p h
          · rw [List.mem_singleton] at h
            subst h
            apply validPos_of_occursAt
            rw [occursAt_iff]
            have := ((rkVerify_spec text pattern i pattern.length 0 cmp (by omega)).1 hvf).1
            exact ⟨by omega, fun k hk => this k (Nat.zero_le _) hk⟩
        · rw [if_neg hvf] at hpm
          exact hv p hpm
      · rw [if_neg hh] at hpm
        simp only [Bool.false_eq_true, if_false] at hpm
        exact hv p hpm
    · by_cases hh : patternHash = textHash
      · rw [if_pos hh]
        have hs := rkVerify_spec text pattern i pattern.length 0 cmp (by omega)
        by_cases hvf : (rkVerify text pattern i pattern.length 0 cmp).1 = true
        · rw [if_pos hvf]
          have := (hs.1 hvf).2
          simp only [List.length_append, List.length_singleton]
          omega
        · rw [if_neg hvf]
          have := hs.2
          omega
      · rw [if_neg hh]
        simpa using hl

theorem rabinKarpSearch_sound (text pattern : CString) (base modulus : Int) :
    (∀ p ∈ (rabinKarpSearch text pattern base modulus).positions, ValidPos text pattern p) ∧
    (rabinKarpSearch text pattern base modulus).positions.length ≤
      (rabinKarpSearch text pattern base modulus).characterComparisons := by
  unfold rabinKarpSearch
  by_cases hd : pattern.length = 0 ∨ text.length < pattern.length
  · rw [if_pos hd]
    simp
  · rw [if_neg hd]
    exact rkLoop_sound text pattern base modulus _ _ (by omega) (by omega) _ 0 _ [] 0
      (by omega) (by simp) (by simp)

theorem bmInner_spec (text pattern : CString) (i : Nat) :
    ∀ (j cmp : Nat),
      ((bmInner text pattern i j cmp).1 = 0 →
        (∀ k, k < j → charAt pattern k = charAt text (i + k)) ∧
        (bmInner text pattern i j cmp).2 = cmp + j) ∧
      cmp ≤ (bmInner text pattern i j cmp).2 := by
  intro j
  induction j with
  | zero =>
    intro cmp
    simp only [bmInner]
    exact ⟨fun _ => ⟨fun k hk => by omega, rfl⟩, le_refl _⟩
  | succ j ih =>
    intro cmp
    simp only [bmInner]
    by_cases hc : charAt pattern j = charAt text (i + j)
    · rw [if_pos hc]
      obtain ⟨h1, h2⟩ := ih (cmp + 1)
      refine ⟨fun h0 => ?_, by omega⟩
      obtain ⟨h3, h4⟩ := h1 h0
      refine ⟨fun k hk => ?_, by omega⟩
      by_cases hkj : k = j
      · subst hkj; exact hc
      · exact h3 k (by omega)
    · rw [if_neg hc]
      exact ⟨fun h0 => by simp at h0, le_refl _⟩

theorem bmLoop_sound (text pattern : CString) (badChar goodSuffix : List Int)
    (hp : pattern.length ≠ 0) (hm : pattern.length ≤ text.length) :
    ∀ (fuel i : Nat) (pos : List Int) (cmp : Nat) (r : List Int × Nat),
      bmLoop text pattern badChar goodSuffix text.length pattern.length fuel i pos cmp = some r →
      (∀ p ∈ pos, ValidPos text pattern p) →
      (∀ p ∈ r.1, ValidPos text pattern p) ∧ cmp ≤ r.2 ∧
        (i ≤ text.length - pattern.length → cmp + 1 ≤ r.2) := by
  intro fuel
  induction fuel with
  | zero => intro i pos cmp r h; simp [bmLoop] at h
  | succ f ih =>
    intro i pos cmp r h hv
    simp only [bmLoop] at h
    by_cases hi : i ≤ text.length - pattern.length
    · rw [if_pos hi] at h
      obtain ⟨hs1, hs2⟩ := bmInner_spec text pattern i pattern.length cmp
      by_cases h0 : (bmInner text pattern i pattern.length cmp).1 = 0
      · rw [if_pos h0] at h
        obtain ⟨hs3, hs4⟩ := hs1 h0
        have hv2 : ∀ p ∈ pos ++ [(i : Int)], ValidPos text pattern p := by
          intro p hpm
          rcases List.mem_append.mp hpm with h' | h'
          · exact hv p h'
          · rw [List.mem_singleton] at h'
            subst h'
            apply validPos_of_occursAt
            rw [occursAt_iff]
            exact ⟨by omega, fun k hk => (hs3 k hk).symm⟩
        obtain ⟨r1, r2, _⟩ := ih _ _ _ r h hv2
        exact ⟨r1, by omega, fun _ => by omega⟩
      · rw [if_neg h0] at h
        obtain ⟨r1, r2, _⟩ := ih _ _ _ r h hv
        exact ⟨r1, by omega, fun _ => by omega⟩
    · rw [if_neg hi] at h
      have := Option.some.inj h
      subst this
      exact ⟨hv, le_refl _, fun hh => absurd hh hi⟩

theorem boyerMooreSearch_sound (text pattern : CString) (fuel : Nat) (r : SearchResult)
    (h : boyerMooreSearch fuel text pattern = some r) :
    (∀ p ∈ r.positions, ValidPos text pattern p) ∧
    (¬ (pattern.length = 0 ∨ text.length < pattern.length) → 1 ≤ r.characterComparisons) := by
  unfold boyerMooreSearch at h
  by_cases hd : pattern.length = 0 ∨ text.length < pattern.length
  · rw [if_pos hd] at h
    have := Option.some.inj h
    subst this
    exact ⟨by simp, fun hh => absurd hd hh⟩
  · rw [if_neg hd] at h
    cases hL : bmLoop text pattern (buildBadCharacterTable pattern) (buildGoodSuffixTable pattern)
        text.length pattern.length fuel 0 [] 0 with
    | none => rw [hL] at h; simp at h
    | some q =>
      rw [hL] at h
      have := Option.some.inj h
      subst this
      obtain ⟨h1, _, h3⟩ := bmLoop_sound text pattern _ _ (by omega) (by omega) fuel 0 [] 0 q hL
        (by simp)
      exact ⟨h1, fun _ => h3 (Nat.zero_le _)⟩

/-! ## More fuel does not change a result -/

theorem kmpFallback_fuel_succ (pattern : CString) (table : List Nat) (c : CChar) :
    ∀ (fuel j cmp : Nat) (x : Nat × Nat),
      kmpFallback pattern table c fuel j cmp = some x →
      kmpFallback pattern table c (fuel + 1) j cmp = some x := by
  intro fuel
  induction fuel with
  | zero => intro j cmp x h; simp [kmpFallback] at h
  | succ f ih =>
    intro j cmp x h
    rw [kmpFallback] at h ⊢
    split
    · rename_i hc
      rw [if_pos hc] at h
      exact ih _ _ x h
    · rename_i hc
      rw [if_neg hc] at h
      exact h

theorem kmpPrefixLoop_fuel_succ (pattern : CString) (fuel : Nat) :
    ∀ (rem i length : Nat) (table : List Nat) (cmp : Nat) (x : List Nat × Nat),
      kmpPrefixLoop pattern fuel rem i length table cmp = some x →
      kmpPrefixLoop pattern (fuel + 1) rem i length table cmp = some x := by
  intro rem
  induction rem with
  | zero => intro i length table cmp x h; simpa [kmpPrefixLoop] using h
  | succ r ih =>
    intro i length table cmp x h
    simp only [kmpPrefixLoop] at h ⊢
    cases hF : kmpFallback pattern table (charAt pattern i) fuel length cmp with
    | none => rw [hF] at h; simp at h
    | some y =>
      rw [hF] at h
      rw [kmpFallback_fuel_succ pattern table _ fuel length cmp y hF]
      exact ih _ _ _ _ x h

theorem kmpScan_fuel_succ (text pattern : CString) (table : List Nat) (fuel : Nat) :
    ∀ (rem i j : Nat) (pos : List Int) (cmp : Nat) (x : List Int × Nat),
      kmpScan text pattern table fuel rem i j pos cmp = some x →
      kmpScan text pattern table (fuel + 1) rem i j pos cmp = some x := by
  intro rem
  induction rem with
  | zero => intro i j pos cmp x h; simpa [kmpScan] using h
  | succ r ih =>
    intro i j pos cmp x h
    simp only [kmpScan] at h ⊢
    cases hF : kmpFallback pattern table (charAt text i) fuel j cmp with
    | none => rw [hF] at h; simp at h
    | some y =>
      rw [hF] at h
      rw [kmpFallback_fuel_succ pattern table _ fuel j cmp y hF]
      simp only at h ⊢
      generalize (if charAt pattern y.1 = charAt text i then y.1 + 1 else y.1) = J at h ⊢
      by_cases hc : J = pattern.length
      · rw [if_pos hc] at h ⊢
        exact ih _ _ _ _ x h
      · rw [if_neg hc] at h ⊢
        exact ih _ _ _ _ x h

theorem kmpSearch_fuel_succ (text pattern : CString) (fuel : Nat) (r : SearchResult)
    (h : kmpSearch fuel text pattern = some r) : kmpSearch (fuel + 1) text pattern = some r := by
  unfold kmpSearch at h ⊢
  by_cases hd : pattern.length = 0 ∨ text.length < pattern.length
  · rw [if_pos hd] at h ⊢; exact h
  · rw [if_neg hd] at h ⊢
    unfold buildKmpPrefix at h ⊢
    rw [if_neg (by omega)] at h ⊢
    cases hT : kmpPrefixLoop pattern fuel (pattern.length - 1) 1 0
        ((List.replicate pattern.length 0).set 0 0) 0 with
    | none => rw [hT] at h; simp at h
    | some t =>
      rw [hT] at h
      rw [kmpPrefixLoop_fuel_succ pattern fuel _ _ _ _ _ t hT]
      simp only at h ⊢
      cases hS : kmpScan text pattern t.1 fuel text.length 0 0 [] 0 with
      | none => rw [hS] at h; simp at h
      | some y =>
        rw [hS] at h
        rw [kmpScan_fuel_succ text pattern t.1 fuel _ _ _ _ _ y hS]
        exact h

theorem kmpSearch_fuel_add (text pattern : CString) (fuel : Nat) (r : SearchResult)
    (h : kmpSearch fuel text pattern = some r) :
    ∀ d, kmpSearch (fuel + d) text pattern = some r := by
  intro d
  induction d with
  | zero => exact h
  | succ d ih => exact kmpSearch_fuel_succ text pattern (fuel + d) r ih

/-- Whatever the fuel, a result returned by `kmpSearch` is the one of the lemma
`kmpSearch_positions`. -/
theorem kmpSearch_returned (text pattern : CString) (fuel : Nat) (r : SearchResult)
    (h : kmpSearch fuel text pattern = some r) :
    r.positions = (bruteForceSearch text pattern).positions ∧
    (¬ (pattern.length = 0 ∨ text.length < pattern.length) → 1 ≤ r.characterComparisons) := by
  obtain ⟨r', h1, h2, h3⟩ :=
    kmpSearch_positions text pattern (fuel + pattern.length) (by omega)
  rw [kmpSearch_fuel_add text pattern fuel r h pattern.length] at h1
  have := Option.some.inj h1
  subst this
  exact ⟨h2, h3⟩

theorem sundayLoop_fuel_succ (text pattern : CString) (shiftTable : ShiftTable) (n m : Nat) :
    ∀ (fuel i : Nat) (pos : List Int) (cmp : Nat) (x : List Int × Nat),
      sundayLoop text pattern shiftTable n m fuel i pos cmp = some x →
      sundayLoop text pattern shiftTable n m (fuel + 1) i pos cmp = some x := by
  intro fuel
  induction fuel with
  | zero => intro i pos cmp x h; simp [sundayLoop] at h
  | succ f ih =>
    intro i pos cmp x h
    rw [sundayLoop] at h ⊢
    by_cases hi : i ≤ n - m
    · rw [if_pos hi] at h ⊢
      simp only at h ⊢
      by_cases hend : i + m ≥ n
      · rw [if_pos hend] at h ⊢; exact h
      · rw [if_neg hend] at h ⊢
        exact ih _ _ _ x h
    · rw [if_neg hi] at h ⊢; exact h

theorem sundaySearch_fuel_succ (text pattern : CString) (fuel : Nat) (r : SearchResult)
    (h : sundaySearch fuel text pattern = some r) :
    sundaySearch (fuel + 1) text pattern = some r := by
  unfold sundaySearch at h ⊢
  by_cases hd : pattern.length = 0 ∨ text.length < pattern.length
  · rw [if_pos hd] at h ⊢; exact h
  · rw [if_neg hd] at h ⊢
    cases hL : sundayLoop text pattern (buildSundayTable pattern) text.length pattern.length
        fuel 0 [] 0 with
    | none => rw [hL] at h; simp at h
    | some y =>
      rw [hL] at h
      rw [sundayLoop_fuel_succ text pattern _ _ _ fuel 0 [] 0 y hL]
      exact h

theorem sundaySearch_fuel_add (text pattern : CString) (fuel : Nat) (r : SearchResult)
    (h : sundaySearch fuel text pattern = some r) :
    ∀ d, sundaySearch (fuel + d) text pattern = some r := by
  intro d
  induction d with
  | zero => exact h
  | succ d ih => exact sundaySearch_fuel_succ text pattern (fuel + d) r ih

/-- Whatever the fuel, a result returned by `sundaySearch` is the one of the lemma
`sundaySearch_positions`. -/
theorem sundaySearch_returned (text pattern : CString) (fuel : Nat) (r : SearchResult)
    (h : sundaySearch fuel text pattern = some r) :
    r.positions = (bruteForceSearch text pattern).positions ∧
    (pattern.length ≠ 0 → pattern.length < text.length → 1 ≤ r.characterComparisons) := by
  obtain ⟨r', h1, h2, h3⟩ :=
    sundaySearch_positions text pattern (fuel + (text.length + 1)) (by omega)
  rw [sundaySearch_fuel_add text pattern fuel r h (text.length + 1)] at h1
  have := Option.some.inj h1
  subst this
  exact ⟨h2, h3⟩

theorem kmpSearch_returns (text pattern : CString) (fuel : Nat)
    (hf : pattern.length ≤ fuel) : ∃ r, kmpSearch fuel text pattern = some r := by
  obtain ⟨r, h1, _⟩ := kmpSearch_positions text pattern fuel hf
  exact ⟨r, h1⟩

theorem sundaySearch_returns (text pattern : CString) (fuel : Nat)
    (hf : text.length < fuel) : ∃ r, sundaySearch fuel text pattern = some r := by
  obtain ⟨r, h1, _⟩ := sundaySearch_positions text pattern fuel hf
  exact ⟨r, h1⟩

/-! ## Main results on the five matchers -/

/-- C1 (the code departs from it): `boyerMooreSearch` does not return the positions of
`bruteForceSearch`. On `("xab", "ab")` it returns no position for every fuel that lets
the scan finish, while `bruteForceSearch` returns `[1]`; on
`("abracadabra abracadabra", "abra")` it returns `[0, 7, 19]`, not `[0, 7, 12, 19]`. -/
theorem boyerMooreSearch_misses_occurrences :
    (∀ fuel, boyerMooreSearch (fuel + 2) [120, 97, 98] [97, 98]
        = some { algorithmName := "Boyer-Moore", positions := [], characterComparisons := 1 }) ∧
    (bruteForceSearch [120, 97, 98] [97, 98]).positions = [1] ∧
    (∀ fuel, boyerMooreSearch (fuel + 8)
        [97, 98, 114, 97, 99, 97, 100, 97, 98, 114, 97, 32,
         97, 98, 114, 97, 99, 97, 100, 97, 98, 114, 97] [97, 98, 114, 97]
        = some { algorithmName := "Boyer-Moore", positions := [0, 7, 19],
                 characterComparisons := 16 }) ∧
    (bruteForceSearch
        [97, 98, 114, 97, 99, 97, 100, 97, 98, 114, 97, 32,
         97, 98, 114, 97, 99, 97, 100, 97, 98, 114, 97] [97, 98, 114, 97]).positions
      = [0, 7, 12, 19] := by
  refine ⟨fun fuel => rfl, by decide, fun fuel => rfl, by decide⟩

theorem bmLoop_stuck (fuel : Nat) : ∀ (pos : List Int) (cmp : Nat),
    bmLoop [97, 97, 97, 97, 97, 97] [97, 97] (buildBadCharacterTable [97, 97])
      (buildGoodSuffixTable [97, 97]) ([97, 97, 97, 97, 97, 97] : CString).length
      ([97, 97] : CString).length fuel 0 pos cmp = none := by
  induction fuel with
  | zero => intro pos cmp; rfl
  | succ f ih =>
    intro pos cmp
    exact ih (pos ++ [(0 : Int)]) (cmp + 1 + 1)

/-- C2 (the code departs from it): `boyerMooreSearch` does not terminate on
`("aaaaaa", "aa")`. The good-suffix table of `"aa"` is `[0, 2]`, so after the full match
at window start `0` the start advances by `goodSuffix[0] = 0`; whatever the fuel, the
scan never finishes, while `bruteForceSearch` returns `[0, 1, 2, 3, 4]`. -/
theorem boyerMooreSearch_diverges :
    buildGoodSuffixTable [97, 97] = [0, 2] ∧
    (∀ fuel, boyerMooreSearch fuel [97, 97, 97, 97, 97, 97] [97, 97] = none) ∧
    (bruteForceSearch [97, 97, 97, 97, 97, 97] [97, 97]).positions = [0, 1, 2, 3, 4] := by
  refine ⟨by decide, fun fuel => ?_, by decide⟩
  unfold boyerMooreSearch
  rw [if_neg (by decide), bmLoop_stuck]

/-- C3: for every text and pattern, `kmpSearch` returns as soon as the fuel of its
fallback loops is at least `|pattern|`, and whatever it returns has the positions of
`bruteForceSearch`. -/
theorem kmpSearch_eq_bruteForceSearch (text pattern : CString) :
    (∀ fuel, pattern.length ≤ fuel → ∃ r, kmpSearch fuel text pattern = some r) ∧
    (∀ fuel r, kmpSearch fuel text pattern = some r →
      r.positions = (bruteForceSearch text pattern).positions) := by
  exact ⟨fun fuel hf => kmpSearch_returns text pattern fuel hf,
    fun fuel r h => (kmpSearch_returned text pattern fuel r h).1⟩

theorem kmpSearch_eq_bruteForceSearch_witness :
    (∃ r, kmpSearch 2 [97, 97, 97, 97, 97, 97] [97, 97] = some r) ∧
    (SearchResult.mk "Knuth-Morris-Pratt" [0, 1, 2, 3, 4] 7).positions
      = (bruteForceSearch [97, 97, 97, 97, 97, 97] [97, 97]).positions :=
  ⟨(kmpSearch_eq_bruteForceSearch [97, 97, 97, 97, 97, 97] [97, 97]).1 2 (by decide),
   (kmpSearch_eq_bruteForceSearch [97, 97, 97, 97, 97, 97] [97, 97]).2 2
     (SearchResult.mk "Knuth-Morris-Pratt" [0, 1, 2, 3, 4] 7) (by decide)⟩

/-- C4 (the code departs from it): with the defaults `base = 256`, `modulus = 101`,
`rabinKarpSearch` misses occurrences of patterns with bytes from 128 on. For the text
`"a\xC3\xA9"` and the pattern `"\xC3\xA9"` the pattern hash is negative (it is not
normalised), the rolled window hash is in `[0, modulus)`, and the occurrence at offset `1`
is not reported; `bruteForceSearch` reports it. -/
theorem rabinKarpSearch_misses_high_bytes :
    rabinKarpSearch [97, 195, 169] [195, 169]
      = { algorithmName := "Rabin-Karp", positions := [], characterComparisons := 0 } ∧
    (bruteForceSearch [97, 195, 169] [195, 169]).positions = [1] ∧
    (rkInitHashes [97, 195, 169] [195, 169] 256 101 2 0 (0, 0)).1 = -48 ∧
    rkRoll [97, 195, 169] 256 101 (rkHighestPower 256 101 1 1) 2 0
      (rkInitHashes [97, 195, 169] [195, 169] 256 101 2 0 (0, 0)).2 = 53 := by
  decide

/-- C5: for every text and pattern, `sundaySearch` returns as soon as the fuel of its
scan loop exceeds `|text|`, and whatever it returns has the positions of
`bruteForceSearch`: no shift skips an occurrence. -/
theorem sundaySearch_eq_bruteForceSearch (text pattern : CString) :
    (∀ fuel, text.length < fuel → ∃ r, sundaySearch fuel text pattern = some r) ∧
    (∀ fuel r, sundaySearch fuel text pattern = some r →
      r.positions = (bruteForceSearch text pattern).positions) := by
  exact ⟨fun fuel hf => sundaySearch_returns text pattern fuel hf,
    fun fuel r h => (sundaySearch_returned text pattern fuel r h).1⟩

theorem sundaySearch_eq_bruteForceSearch_witness :
    (∃ r, sundaySearch 7 [97, 97, 97, 97, 97, 97] [97, 97] = some r) ∧
    (SearchResult.mk "Sunday" [0, 1, 2, 3, 4] 14).positions
      = (bruteForceSearch [97, 97, 97, 97, 97, 97] [97, 97]).positions :=
  ⟨(sundaySearch_eq_bruteForceSearch [97, 97, 97, 97, 97, 97] [97, 97]).1 7 (by decide),
   (sundaySearch_eq_bruteForceSearch [97, 97, 97, 97, 97, 97] [97, 97]).2 5
     (SearchResult.mk "Sunday" [0, 1, 2, 3, 4] 14) (by decide)⟩

theorem occFrom_zero_eq (text pattern : CString) (len : Nat)
    (h : len ≤ text.length - pattern.length + 1) (hm : pattern.length ≤ text.length) :
    occFrom text pattern 0 len =
      ((List.range len).filter
        (fun i => decide ((text.drop i).take pattern.length = pattern))).map
        (fun (i : Nat) => (i : Int)) := by
  unfold occFrom
  rw [← List.range_eq_range']
  congr 1
  apply List.filter_congr
  intro i hi
  have hi' := List.mem_range.mp hi
  unfold OccursAt
  have : i + pattern.length ≤ text.length := by omega
  simp [this]

/-- C6: for a non-empty pattern no longer than the text, the positions of
`bruteForceSearch` are the ascending list of all `i` in `[0, n - m]` with
`text[i .. i + m) = pattern`: the list is strictly increasing (hence without duplicates),
its members are the window starts at which every character agrees, and
`bruteForceSearch(s, s)` gives `[0]`. -/
theorem bruteForceSearch_ground_truth (text pattern : CString) (hp : pattern ≠ [])
    (hm : pattern.length ≤ text.length) :
    (bruteForceSearch text pattern).positions =
      ((List.range (text.length - pattern.length + 1)).filter
        (fun i => decide ((text.drop i).take pattern.length = pattern))).map
        (fun (i : Nat) => (i : Int)) ∧
    List.Pairwise (fun a b => a < b) (bruteForceSearch text pattern).positions ∧
    (∀ p : Int, p ∈ (bruteForceSearch text pattern).positions ↔
      ∃ i : Nat, p = (i : Int) ∧ i + pattern.length ≤ text.length ∧
        ∀ k, k < pattern.length → charAt text (i + k) = charAt pattern k) ∧
    (bruteForceSearch pattern pattern).positions = [0] := by
  have hp0 : pattern.length ≠ 0 := fun h => hp (List.length_eq_zero.mp h)
  have hpos := bruteForceSearch_positions text pattern hp0 hm
  have hlist := occFrom_zero_eq text pattern (text.length - pattern.length + 1) (le_refl _) hm
  unfold occurrences at hpos
  refine ⟨hpos.trans hlist, ?_, ?_, ?_⟩
  · rw [hpos]
    unfold occFrom
    rw [List.pairwise_map]
    apply List.Pairwise.filter
    rw [← List.range_eq_range']
    exact (List.pairwise_lt_range _).imp (fun h => by omega)
  · intro p
    rw [hpos]
    unfold occFrom
    rw [List.mem_map]
    constructor
    · rintro ⟨i, hi, rfl⟩
      have := of_decide_eq_true (List.mem_filter.mp hi).2
      exact ⟨i, rfl, (occursAt_iff text pattern i).mp this⟩
    · rintro ⟨i, rfl, h1, h2⟩
      refine ⟨i, List.mem_filter.mpr ⟨?_, ?_⟩, rfl⟩
      · rw [← List.range_eq_range', List.mem_range]; omega
      · exact decide_eq_true ((occursAt_iff text pattern i).mpr ⟨h1, h2⟩)
  · rw [bruteForceSearch_positions pattern pattern hp0 (le_refl _)]
    unfold occurrences
    rw [Nat.sub_self, occFrom_succ, occFrom_zero, if_pos]
    · rfl
    · exact ⟨by omega, by simp⟩

theorem bruteForceSearch_ground_truth_witness :
    ([97, 98] : CString) ≠ [] ∧ ([97, 98] : CString).length ≤ ([120, 97, 98] : CString).length ∧
    (bruteForceSearch [120, 97, 98] [97, 98]).positions =
      ((List.range (([120, 97, 98] : CString).length - ([97, 98] : CString).length + 1)).filter
        (fun i => decide ((([120, 97, 98] : CString).drop i).take ([97, 98] : CString).length
          = [97, 98]))).map (fun (i : Nat) => (i : Int)) :=
  ⟨by decide, by decide,
    (bruteForceSearch_ground_truth [120, 97, 98] [97, 98] (by decide) (by decide)).1⟩

/-- C7: when the pattern is empty or longer than the text, each of the five matchers
returns at once (whatever the fuel of the fuelled ones) with no position and a comparison
count of `0`; no table is built, and indeed `buildKmpPrefix` on the empty pattern would
write outside its vector. -/
theorem degenerate_input_empty_result (text pattern : CString)
    (hd : pattern.length = 0 ∨ text.length < pattern.length) :
    bruteForceSearch text pattern
      = { algorithmName := "Brute Force", positions := [], characterComparisons := 0 } ∧
    (∀ base modulus : Int, rabinKarpSearch text pattern base modulus
      = { algorithmName := "Rabin-Karp", positions := [], characterComparisons := 0 }) ∧
    (∀ fuel, kmpSearch fuel text pattern
      = some { algorithmName := "Knuth-Morris-Pratt", positions := [],
               characterComparisons := 0 }) ∧
    (∀ fuel, sundaySearch fuel text pattern
      = some { algorithmName := "Sunday", positions := [], characterComparisons := 0 }) ∧
    (∀ fuel, boyerMooreSearch fuel text pattern
      = some { algorithmName := "Boyer-Moore", positions := [], characterComparisons := 0 }) ∧
    (∀ fuel comparisons, buildKmpPrefix fuel [] comparisons = none) := by
  refine ⟨?_, fun base modulus => ?_, fun fuel => ?_, fun fuel => ?_, fun fuel => ?_,
    fun fuel comparisons => rfl⟩
  · unfold bruteForceSearch; rw [if_pos hd]
  · unfold rabinKarpSearch; rw [if_pos hd]
  · unfold kmpSearch; rw [if_pos hd]
  · unfold sundaySearch; rw [if_pos hd]
  · unfold boyerMooreSearch; rw [if_pos hd]

theorem degenerate_input_empty_result_witness :
    (([97, 98, 99] : CString).length = 0 ∨
      ([97, 98] : CString).length < ([97, 98, 99] : CString).length) ∧
    (∀ fuel, kmpSearch fuel [97, 98] [97, 98, 99]
      = some { algorithmName := "Knuth-Morris-Pratt", positions := [],
               characterComparisons := 0 }) :=
  ⟨by decide, (degenerate_input_empty_result [97, 98] [97, 98, 99] (by decide)).2.2.1⟩

/-- C8: `runAlgorithm` maps the identifiers `1 .. 5` to `bruteForceSearch`,
`rabinKarpSearch` (base 256, modulus 101), `sundaySearch`, `kmpSearch` and
`boyerMooreSearch` in this order, and every other identifier to the default report:
empty name, no position, comparison count `0`. -/
theorem runAlgorithm_dispatch (fuel : Nat) (text pattern : CString) :
    runAlgorithm fuel 1 text pattern = some (bruteForceSearch text pattern) ∧
    runAlgorithm fuel 2 text pattern = some (rabinKarpSearch text pattern 256 101) ∧
    runAlgorithm fuel 3 text pattern = sundaySearch fuel text pattern ∧
    runAlgorithm fuel 4 text pattern = kmpSearch fuel text pattern ∧
    runAlgorithm fuel 5 text pattern = boyerMooreSearch fuel text pattern ∧
    (∀ choice : Int, (choice < 1 ∨ 5 < choice) →
      runAlgorithm fuel choice text pattern
        = some { algorithmName := "", positions := [], characterComparisons := 0 }) := by
  refine ⟨rfl, rfl, rfl, rfl, rfl, fun choice hc => ?_⟩
  unfold runAlgorithm
  split <;> first | omega | rfl

theorem runAlgorithm_dispatch_witness :
    ((0 : Int) < 1 ∨ (5 : Int) < 0) ∧
    runAlgorithm 3 0 [97, 98] [97]
      = some { algorithmName := "", positions := [], characterComparisons := 0 } :=
  ⟨by decide, (runAlgorithm_dispatch 3 [97, 98] [97]).2.2.2.2.2 0 (by decide)⟩

theorem bruteForceSearch_sound (text pattern : CString) :
    ∀ p ∈ (bruteForceSearch text pattern).positions, ValidPos text pattern p := by
  intro p hpm
  by_cases hd : pattern.length = 0 ∨ text.length < pattern.length
  · unfold bruteForceSearch at hpm
    rw [if_pos hd] at hpm
    simp at hpm
  · rw [bruteForceSearch_positions text pattern (by omega) (by omega)] at hpm
    exact validPos_of_mem_occFrom text pattern _ _ p hpm

/-- C9: no matcher reports a false positive. Every position `p` reported by
`bruteForceSearch`, by `rabinKarpSearch` (for any base and modulus, so a hash hit whose
characters differ is never recorded), and by `kmpSearch`, `sundaySearch` and
`boyerMooreSearch` whatever the fuel they return with, satisfies `0 ≤ p`,
`p + |pattern| ≤ |text|` and `text[p .. p + |pattern|) = pattern`; `kmpSearch` and
`sundaySearch` do return, given fuel `|pattern|` and `|text| + 1`. -/
theorem no_false_positives (text pattern : CString) :
    (∀ p ∈ (bruteForceSearch text pattern).positions, ValidPos text pattern p) ∧
    (∀ base modulus : Int, ∀ p ∈ (rabinKarpSearch text pattern base modulus).positions,
      ValidPos text pattern p) ∧
    (∀ fuel r, kmpSearch fuel text pattern = some r →
      ∀ p ∈ r.positions, ValidPos text pattern p) ∧
    (∀ fuel r, sundaySearch fuel text pattern = some r →
      ∀ p ∈ r.positions, ValidPos text pattern p) ∧
    (∀ fuel r, boyerMooreSearch fuel text pattern = some r →
      ∀ p ∈ r.positions, ValidPos text pattern p) ∧
    (∀ fuel, pattern.length ≤ fuel → ∃ r, kmpSearch fuel text pattern = some r) ∧
    (∀ fuel, text.length < fuel → ∃ r, sundaySearch fuel text pattern = some r) := by
  refine ⟨bruteForceSearch_sound text pattern,
    fun base modulus => (rabinKarpSearch_sound text pattern base modulus).1,
    fun fuel r h p hpm => ?_, fun fuel r h p hpm => ?_,
    fun fuel r h => (boyerMooreSearch_sound text pattern fuel r h).1,
    fun fuel hf => kmpSearch_returns text pattern fuel hf,
    fun fuel hf => sundaySearch_returns text pattern fuel hf⟩
  · exact bruteForceSearch_sound text pattern p
      ((kmpSearch_returned text pattern fuel r h).1 ▸ hpm)
  · exact bruteForceSearch_sound text pattern p
      ((sundaySearch_returned text pattern fuel r h).1 ▸ hpm)

theorem no_false_positives_witness :
    ValidPos [97, 98, 97, 98] [97, 98] 2 ∧
    ValidPos [97, 98, 97, 98] [97, 98] 0 ∧
    ValidPos [97, 98, 97, 98] [97, 98] 2 ∧
    ValidPos [97, 98, 97, 98] [97, 98] 0 ∧
    ValidPos [97, 98, 97, 98] [97, 98] 2 ∧
    (∃ r, kmpSearch 2 [97, 98, 97, 98] [97, 98] = some r) ∧
    (∃ r, sundaySearch 5 [97, 98, 97, 98] [97, 98] = some r) :=
  ⟨(no_false_positives [97, 98, 97, 98] [97, 98]).1 2 (by decide),
   (no_false_positives [97, 98, 97, 98] [97, 98]).2.1 256 101 0 (by decide),
   (no_false_positives [97, 98, 97, 98] [97, 98]).2.2.1 2
     (SearchResult.mk "Knuth-Morris-Pratt" [0, 2] 5) (by decide) 2 (by decide),
   (no_false_positives [97, 98, 97, 98] [97, 98]).2.2.2.1 5
     (SearchResult.mk "Sunday" [0, 2] 5) (by decide) 0 (by decide),
   (no_false_positives [97, 98, 97, 98] [97, 98]).2.2.2.2.1 3
     (SearchResult.mk "Boyer-Moore" [0, 2] 4) (by decide) 2 (by decide),
   (no_false_positives [97, 98, 97, 98] [97, 98]).2.2.2.2.2.1 2 (by decide),
   (no_false_positives [97, 98, 97, 98] [97, 98]).2.2.2.2.2.2 5 (by decide)⟩

/-- C10 (fails as stated): on non-degenerate inputs the comparison count can be `0`.
`rabinKarpSearch` on `("abcdef", "xyz")` meets no hash hit and compares no character;
`sundaySearch` on `("abc", "xyz")` leaves the mismatch of its only window uncounted. -/
theorem characterComparisons_zero_nondegenerate :
    ¬ (([120, 121, 122] : CString).length = 0 ∨
        ([97, 98, 99, 100, 101, 102] : CString).length < ([120, 121, 122] : CString).length) ∧
    rabinKarpSearch [97, 98, 99, 100, 101, 102] [120, 121, 122]
      = { algorithmName := "Rabin-Karp", positions := [], characterComparisons := 0 } ∧
    ¬ (([120, 121, 122] : CString).length = 0 ∨
        ([97, 98, 99] : CString).length < ([120, 121, 122] : CString).length) ∧
    (∀ fuel, sundaySearch (fuel + 1) [97, 98, 99] [120, 121, 122]
      = some { algorithmName := "Sunday", positions := [], characterComparisons := 0 }) := by
  refine ⟨by decide, by decide, by decide, fun fuel => rfl⟩

/-- C10 (amended): on every non-degenerate input `bruteForceSearch` counts at least
one comparison, and so do `kmpSearch` and `boyerMooreSearch` whatever the fuel they
return with; `sundaySearch` counts at least one when the pattern is shorter than the
text; `rabinKarpSearch` counts comparisons only after a hash hit: its count is at least
the number of reported positions. `kmpSearch` and `sundaySearch` do return, given fuel
`|pattern|` and `|text| + 1`. -/
theorem characterComparisons_pos (text pattern : CString) (hp : pattern.length ≠ 0)
    (hm : pattern.length ≤ text.length) :
    1 ≤ (bruteForceSearch text pattern).characterComparisons ∧
    (∀ fuel r, kmpSearch fuel text pattern = some r → 1 ≤ r.characterComparisons) ∧
    (∀ fuel r, boyerMooreSearch fuel text pattern = some r → 1 ≤ r.characterComparisons) ∧
    (∀ fuel r, sundaySearch fuel text pattern = some r → pattern.length < text.length →
      1 ≤ r.characterComparisons) ∧
    (∀ base modulus : Int,
      (rabinKarpSearch text pattern base modulus).positions.length ≤
        (rabinKarpSearch text pattern base modulus).characterComparisons) ∧
    (∀ fuel, pattern.length ≤ fuel → ∃ r, kmpSearch fuel text pattern = some r) ∧
    (∀ fuel, text.length < fuel → ∃ r, sundaySearch fuel text pattern = some r) := by
  exact ⟨bruteForceSearch_comparisons text pattern hp hm,
    fun fuel r h => (kmpSearch_returned text pattern fuel r h).2 (by omega),
    fun fuel r h => (boyerMooreSearch_sound text pattern fuel r h).2 (by omega),
    fun fuel r h hlt => (sundaySearch_returned text pattern fuel r h).2 hp hlt,
    fun base modulus => (rabinKarpSearch_sound text pattern base modulus).2,
    fun fuel hf => kmpSearch_returns text pattern fuel hf,
    fun fuel hf => sundaySearch_returns text pattern fuel hf⟩

theorem characterComparisons_pos_witness :
    1 ≤ (bruteForceSearch [97, 98, 99, 100, 101, 102] [120, 121, 122]).characterComparisons ∧
    1 ≤ (SearchResult.mk "Knuth-Morris-Pratt" [] 8).characterComparisons ∧
    1 ≤ (SearchResult.mk "Boyer-Moore" [] 2).characterComparisons ∧
    1 ≤ (SearchResult.mk "Sunday" [] 1).characterComparisons ∧
    (∃ r, kmpSearch 3 [97, 98, 99, 100, 101, 102] [120, 121, 122] = some r) ∧
    (∃ r, sundaySearch 7 [97, 98, 99, 100, 101, 102] [120, 121, 122] = some r) :=
  ⟨(characterComparisons_pos [97, 98, 99, 100, 101, 102] [120, 121, 122]
      (by decide) (by decide)).1,
   (characterComparisons_pos [97, 98, 99, 100, 101, 102] [120, 121, 122]
      (by decide) (by decide)).2.1 3 (SearchResult.mk "Knuth-Morris-Pratt" [] 8) (by decide),
   (characterComparisons_pos [97, 98, 99, 100, 101, 102] [120, 121, 122]
      (by decide) (by decide)).2.2.1 3 (SearchResult.mk "Boyer-Moore" [] 2) (by decide),
   (characterComparisons_pos [97, 98, 99, 100, 101, 102] [120, 121, 122]
      (by decide) (by decide)).2.2.2.1 7 (SearchResult.mk "Sunday" [] 1) (by decide)
      (by decide),
   (characterComparisons_pos [97, 98, 99, 100, 101, 102] [120, 121, 122]
      (by decide) (by decide)).2.2.2.2.2.1 3 (by decide),
   (characterComparisons_pos [97, 98, 99, 100, 101, 102] [120, 121, 122]
      (by decide) (by decide)).2.2.2.2.2.2 7 (by decide)⟩

/-! ## The prefix table of `buildKmpPrefix` -/

theorem buildKmpPrefix_fuel_add (pattern : CString) (fuel cmp : Nat) (x : List Nat × Nat)
    (h : buildKmpPrefix fuel pattern cmp = some x) :
    ∀ d, buildKmpPrefix (fuel + d) pattern cmp = some x := by
  intro d
  induction d with
  | zero => exact h
  | succ d ih =>
    unfold buildKmpPrefix at ih ⊢
    by_cases hp : pattern.length = 0
    · rw [if_pos hp] at ih; simp at ih
    · rw [if_neg hp] at ih ⊢
      exact kmpPrefixLoop_fuel_succ pattern (fuel + d) _ _ _ _ _ x ih

/-- An entry of a right table, read as a border: `table[i]` is the greatest `k ≤ i` with
`pattern[0 .. k) = pattern[i + 1 - k .. i + 1)`. -/
theorem tableOk_border (pattern : CString) (table : List Nat)
    (h : TableOk pattern table pattern.length) (i : Nat) (hi : i < pattern.length) :
    table.getD i 0 ≤ i ∧
    pattern.take (table.getD i 0) = (pattern.take (i + 1)).drop (i + 1 - table.getD i 0) ∧
    ∀ k, k ≤ i → pattern.take k = (pattern.take (i + 1)).drop (i + 1 - k) →
      k ≤ table.getD i 0 := by
  obtain ⟨h1, h2, h3⟩ := h (i + 1) (by omega) (by omega)
  rw [Nat.add_sub_cancel] at h1 h2 h3
  have hv : table.getD i 0 ≤ i := by
    have := h2.length_le
    simp only [List.length_take, List.length_tail] at this
    omega
  refine ⟨hv, ?_, ?_⟩
  · have hs := h2.trans (List.tail_suffix _)
    have := List.suffix_iff_eq_drop.mp hs
    simp only [List.length_take] at this
    have e : min (i + 1) pattern.length - min (table.getD i 0) pattern.length
        = i + 1 - table.getD i 0 := by omega
    rw [e] at this
    exact this
  · intro k hk hkeq
    apply h3 k (by omega)
    apply take_suffix_tail pattern k (i + 1) (by omega) (by omega)
    rw [hkeq]
    exact List.drop_suffix _ _

/-- C11: for a non-empty pattern `buildKmpPrefix` returns (given fuel `|pattern|` for its
fallback loop), and in any table it returns the entry `i` is the length of the longest
proper prefix of `pattern[0 .. i]` that is also a suffix of it: the greatest `k ≤ i` with
`pattern[0 .. k) = pattern[i + 1 - k .. i + 1)`. -/
theorem buildKmpPrefix_longest_border (pattern : CString) (hp : pattern ≠ [])
    (comparisons : Nat) :
    (∀ fuel, pattern.length ≤ fuel → ∃ x, buildKmpPrefix fuel pattern comparisons = some x) ∧
    (∀ fuel x, buildKmpPrefix fuel pattern comparisons = some x →
      x.1.length = pattern.length ∧
      ∀ i, i < pattern.length →
        x.1.getD i 0 ≤ i ∧
        pattern.take (x.1.getD i 0) = (pattern.take (i + 1)).drop (i + 1 - x.1.getD i 0) ∧
        ∀ k, k ≤ i → pattern.take k = (pattern.take (i + 1)).drop (i + 1 - k) →
          k ≤ x.1.getD i 0) := by
  have hp0 : pattern.length ≠ 0 := fun h => hp (List.length_eq_zero.mp h)
  constructor
  · intro fuel hf
    obtain ⟨table, cmp', h, _⟩ := buildKmpPrefix_spec pattern fuel comparisons hp0 hf
    exact ⟨_, h⟩
  · intro fuel x h
    obtain ⟨table, cmp', h1, h2, h3⟩ :=
      buildKmpPrefix_spec pattern (fuel + pattern.length) comparisons hp0 (by omega)
    rw [buildKmpPrefix_fuel_add pattern fuel comparisons x h pattern.length] at h1
    have := Option.some.inj h1
    subst this
    exact ⟨h3, fun i hi => tableOk_border pattern table h2 i hi⟩

theorem buildKmpPrefix_longest_border_witness :
    (∃ x, buildKmpPrefix 5 [97, 98, 97, 98, 99] 0 = some x) ∧
    (([0, 0, 1, 2, 0] : List Nat).getD 3 0 ≤ 3 ∧
      ([97, 98, 97, 98, 99] : CString).take (([0, 0, 1, 2, 0] : List Nat).getD 3 0)
        = (([97, 98, 97, 98, 99] : CString).take (3 + 1)).drop
            (3 + 1 - ([0, 0, 1, 2, 0] : List Nat).getD 3 0) ∧
      ∀ k, k ≤ 3 →
        ([97, 98, 97, 98, 99] : CString).take k
          = (([97, 98, 97, 98, 99] : CString).take (3 + 1)).drop (3 + 1 - k) →
        k ≤ ([0, 0, 1, 2, 0] : List Nat).getD 3 0) :=
  ⟨(buildKmpPrefix_longest_border [97, 98, 97, 98, 99] (by decide) 0).1 5 (by decide),
   ((buildKmpPrefix_longest_border [97, 98, 97, 98, 99] (by decide) 0).2 5
      ([0, 0, 1, 2, 0], 5) (by decide)).2 3 (by decide)⟩

/-! ## The comparison count of `bruteForceSearch` -/

theorem drop_eq_charAt_cons (s : CString) (j : Nat) (h : j < s.length) :
    s.drop j = charAt s j :: s.drop (j + 1) := by
  rw [charAt_eq_getElem s j h]
  exact List.drop_eq_getElem_cons h

theorem bruteInner_count (text pattern : CString) (i : Nat)
    (hi : i + pattern.length ≤ text.length) :
    ∀ (rem j cmp : Nat), rem + j = pattern.length →
      (bruteInner text pattern i rem j cmp).2 =
        cmp + min rem (lcpLen ((text.drop (i + j)).take rem) (pattern.drop j) + 1) := by
  intro rem
  induction rem with
  | zero => intro j cmp _; simp [bruteInner]
  | succ r ih =>
    intro j cmp h
    rw [drop_eq_charAt_cons text (i + j) (by omega), drop_eq_charAt_cons pattern j (by omega),
      List.take_succ_cons, lcpLen, bruteInner]
    by_cases hc : charAt text (i + j) = charAt pattern j
    · rw [if_neg (not_not.mpr hc), if_pos hc, ih (j + 1) (cmp + 1) (by omega)]
      have e : i + (j + 1) = i + j + 1 := by omega
      rw [e]
      omega
    · rw [if_pos hc, if_neg hc]
      simp only
      omega

theorem bruteCount_succ (text pattern : CString) (i rem : Nat) :
    bruteCount text pattern i (rem + 1) =
      min pattern.length (lcpLen ((text.drop i).take pattern.length) pattern + 1)
        + bruteCount text pattern (i + 1) rem := by
  unfold bruteCount
  rw [List.range'_succ, List.map_cons, List.sum_cons]

theorem bruteOuter_count (text pattern : CString) (hm : pattern.length ≤ text.length) :
    ∀ (rem i : Nat) (pos : List Int) (cmp : Nat),
      i + rem ≤ text.length - pattern.length + 1 →
      (bruteOuter text pattern rem i pos cmp).2 = cmp + bruteCount text pattern i rem := by
  intro rem
  induction rem with
  | zero => intro i pos cmp _; simp [bruteOuter, bruteCount]
  | succ r ih =>
    intro i pos cmp h
    have hin := bruteInner_count text pattern i (by omega) pattern.length 0 cmp (by omega)
    simp only [Nat.add_zero, List.drop_zero] at hin
    rw [bruteOuter, bruteCount_succ]
    split
    · rw [ih (i + 1) _ _ (by omega), hin, Nat.add_assoc]
    · rw [ih (i + 1) _ _ (by omega), hin, Nat.add_assoc]

theorem bruteCount_bounds (text pattern : CString) (hp : pattern.length ≠ 0) :
    ∀ (rem i : Nat), rem ≤ bruteCount text pattern i rem ∧
      bruteCount text pattern i rem ≤ rem * pattern.length := by
  intro rem
  induction rem with
  | zero => intro i; simp [bruteCount]
  | succ r ih =>
    intro i
    rw [bruteCount_succ]
    obtain ⟨h1, h2⟩ := ih (i + 1)
    rw [Nat.succ_mul]
    constructor <;> omega

theorem bruteCount_zero_eq (text pattern : CString) (len : Nat) :
    bruteCount text pattern 0 len =
      ((List.range len).map
        (fun i => min pattern.length
          (lcpLen ((text.drop i).take pattern.length) pattern + 1))).sum := by
  unfold bruteCount
  rw [← List.range_eq_range']

/-- C14: for a non-empty pattern no longer than the text, the comparison count of
`bruteForceSearch` is the sum over the window starts `i` in `[0, n - m]` of
`min (m, L_i + 1)`, with `L_i` the length of the longest common prefix of
`text[i .. i + m)` and `pattern`; hence it lies between `n - m + 1` and `(n - m + 1) * m`. -/
theorem bruteForceSearch_comparison_count (text pattern : CString) (hp : pattern ≠ [])
    (hm : pattern.length ≤ text.length) :
    (bruteForceSearch text pattern).characterComparisons =
      ((List.range (text.length - pattern.length + 1)).map
        (fun i => min pattern.length
          (lcpLen ((text.drop i).take pattern.length) pattern + 1))).sum ∧
    text.length - pattern.length + 1 ≤ (bruteForceSearch text pattern).characterComparisons ∧
    (bruteForceSearch text pattern).characterComparisons
      ≤ (text.length - pattern.length + 1) * pattern.length := by
  have hp0 : pattern.length ≠ 0 := fun h => hp (List.length_eq_zero.mp h)
  have hc : (bruteForceSearch text pattern).characterComparisons
      = bruteCount text pattern 0 (text.length - pattern.length + 1) := by
    unfold bruteForceSearch
    rw [if_neg (by omega)]
    simp only
    rw [bruteOuter_count text pattern hm _ 0 [] 0 (by omega), Nat.zero_add]
  obtain ⟨h1, h2⟩ := bruteCount_bounds text pattern hp0 (text.length - pattern.length + 1) 0
  rw [hc]
  exact ⟨bruteCount_zero_eq text pattern _, h1, h2⟩

theorem bruteForceSearch_comparison_count_witness :
    (bruteForceSearch [97, 97, 98, 97, 97, 97] [97, 97]).characterComparisons =
      ((List.range (([97, 97, 98, 97, 97, 97] : CString).length
          - ([97, 97] : CString).length + 1)).map
        (fun i => min ([97, 97] : CString).length
          (lcpLen ((([97, 97, 98, 97, 97, 97] : CString).drop i).take
            ([97, 97] : CString).length) [97, 97] + 1))).sum ∧
    (bruteForceSearch [97, 97, 98, 97, 97, 97] [97, 97]).characterComparisons = 9 :=
  ⟨(bruteForceSearch_comparison_count [97, 97, 98, 97, 97, 97] [97, 97]
      (by decide) (by decide)).1, by decide⟩

/-! ## The tables of `buildSundayTable` and `buildBadCharacterTable` -/

theorem mem_iff_charAt (s : CString) (c : CChar) :
    c ∈ s ↔ ∃ k, k < s.length ∧ charAt s k = c := by
  rw [List.mem_iff_getElem]
  constructor
  · rintro ⟨k, hk, h⟩
    exact ⟨k, hk, by rw [charAt_eq_getElem s k hk]; exact h⟩
  · rintro ⟨k, hk, h⟩
    exact ⟨k, hk, by rw [← charAt_eq_getElem s k hk]; exact h⟩

/-- C16: the keys of `buildSundayTable pattern` are exactly the symbols of `pattern`; the
entry of a symbol is `m` minus the index of its rightmost occurrence, hence in `[1, m]`;
and an iteration of the scan of `sundaySearch` whose look-ahead symbol `text[i + m]` is
not a key moves the window start by `m + 1`. -/
theorem buildSundayTable_spec (pattern : CString) :
    (∀ c : CChar, buildSundayTable pattern c ≠ none ↔ c ∈ pattern) ∧
    (∀ (c : CChar) (s : Nat), buildSundayTable pattern c = some s →
      1 ≤ s ∧ s ≤ pattern.length ∧
      ∃ r, r < pattern.length ∧ s = pattern.length - r ∧ charAt pattern r = c ∧
        ∀ k, r < k → k < pattern.length → charAt pattern k ≠ c) ∧
    (∀ (text : CString) (fuel i : Nat) (pos : List Int) (cmp : Nat),
      i + pattern.length < text.length →
      buildSundayTable pattern (charAt text (i + pattern.length)) = none →
      sundayLoop text pattern (buildSundayTable pattern) text.length pattern.length
          (fuel + 1) i pos cmp =
        sundayLoop text pattern (buildSundayTable pattern) text.length pattern.length fuel
          (i + (pattern.length + 1))
          (if (sundayInner text pattern i pattern.length 0 cmp).1 = pattern.length
            then pos ++ [(i : Int)] else pos)
          ((sundayInner text pattern i pattern.length 0 cmp).2 + 1)) := by
  have hsome : ∀ (c : CChar) (s : Nat), buildSundayTable pattern c = some s →
      ∃ r, r < pattern.length ∧ s = pattern.length - r ∧ charAt pattern r = c ∧
        ∀ k, r < k → k < pattern.length → charAt pattern k ≠ c := by
    intro c s h
    rcases sundayTableLoop_some pattern pattern.length 0 _ c s h with ⟨h1, _⟩ | ⟨r, _, h2, h3, h4, h5⟩
    · simp at h1
    · exact ⟨r, by omega, h3, h4, fun k hk1 hk2 => h5 k hk1 (by omega)⟩
  refine ⟨fun c => ?_, fun c s h => ?_, ?_⟩
  · rw [mem_iff_charAt]
    constructor
    · intro h
      cases hT : buildSundayTable pattern c with
      | none => exact absurd hT h
      | some s =>
        obtain ⟨r, hr1, _, hr3, _⟩ := hsome c s hT
        exact ⟨r, hr1, hr3⟩
    · rintro ⟨k, hk, hc⟩ hT
      exact sundayTableLoop_none pattern pattern.length 0 _ c hT k (Nat.zero_le _) (by omega) hc
  · obtain ⟨r, hr1, hr2, hr3, hr4⟩ := hsome c s h
    exact ⟨by omega, by omega, r, hr1, hr2, hr3, hr4⟩
  · intro text fuel i pos cmp hi hT
    rw [sundayLoop, if_pos (by omega)]
    simp only
    rw [if_neg (by omega), hT]

theorem buildSundayTable_spec_witness :
    ((98 : CChar) ∈ ([97, 98, 114, 97] : CString)) ∧
    (1 ≤ 3 ∧ 3 ≤ ([97, 98, 114, 97] : CString).length ∧
      ∃ r, r < ([97, 98, 114, 97] : CString).length ∧
        3 = ([97, 98, 114, 97] : CString).length - r ∧
        charAt [97, 98, 114, 97] r = 98 ∧
        ∀ k, r < k → k < ([97, 98, 114, 97] : CString).length →
          charAt [97, 98, 114, 97] k ≠ 98) ∧
    sundayLoop [120, 120, 120, 120, 120, 120] [97, 98, 114, 97]
        (buildSundayTable [97, 98, 114, 97]) ([120, 120, 120, 120, 120, 120] : CString).length
        ([97, 98, 114, 97] : CString).length (0 + 1) 0 [] 0 =
      sundayLoop [120, 120, 120, 120, 120, 120] [97, 98, 114, 97]
        (buildSundayTable [97, 98, 114, 97]) ([120, 120, 120, 120, 120, 120] : CString).length
        ([97, 98, 114, 97] : CString).length 0 (0 + (([97, 98, 114, 97] : CString).length + 1))
        (if (sundayInner [120, 120, 120, 120, 120, 120] [97, 98, 114, 97] 0
              ([97, 98, 114, 97] : CString).length 0 0).1 = ([97, 98, 114, 97] : CString).length
          then [] ++ [((0 : Nat) : Int)] else [])
        ((sundayInner [120, 120, 120, 120, 120, 120] [97, 98, 114, 97] 0
              ([97, 98, 114, 97] : CString).length 0 0).2 + 1) :=
  ⟨((buildSundayTable_spec [97, 98, 114, 97]).1 98).mp (by decide),
   (buildSundayTable_spec [97, 98, 114, 97]).2.1 98 3 (by decide),
   (buildSundayTable_spec [97, 98, 114, 97]).2.2 [120, 120, 120, 120, 120, 120] 0 0 [] 0
     (by decide) (by decide)⟩

theorem getD_set_self_int (l : List Int) (i : Nat) (v : Int) (h : i < l.length) :
    (l.set i v).getD i 0 = v := by
  simp [List.getD_eq_getElem?_getD, List.getElem?_set, h]

theorem getD_set_ne_int (l : List Int) (i j : Nat) (v : Int) (h : i ≠ j) :
    (l.set i v).getD j 0 = l.getD j 0 := by
  simp [List.getD_eq_getElem?_getD, List.getElem?_set_ne h]

theorem badCharLoop_length (pattern : CString) :
    ∀ (rem i : Nat) (badChar : List Int),
      (badCharLoop pattern rem i badChar).length = badChar.length := by
  intro rem
  induction rem with
  | zero => intro i badChar; rfl
  | succ r ih => intro i badChar; rw [badCharLoop, ih, List.length_set]

theorem badCharLoop_spec (pattern : CString) :
    ∀ (rem i : Nat) (badChar : List Int) (c : CChar), badChar.length = 256 →
      ((badCharLoop pattern rem i badChar).getD c.val 0 = badChar.getD c.val 0 ∧
        ∀ k, i ≤ k → k < i + rem → charAt pattern k ≠ c) ∨
      (∃ r, i ≤ r ∧ r < i + rem ∧
        (badCharLoop pattern rem i badChar).getD c.val 0 = (r : Int) ∧
        charAt pattern r = c ∧ ∀ k, r < k → k < i + rem → charAt pattern k ≠ c) := by
  intro rem
  induction rem with
  | zero =>
    intro i badChar c _
    left
    exact ⟨rfl, fun k h1 h2 => by omega⟩
  | succ r ih =>
    intro i badChar c hlen
    rw [badCharLoop]
    rcases ih (i + 1) (badChar.set (charAt pattern i).val (i : Int)) c
        (by rw [List.length_set]; exact hlen) with ⟨h1, h2⟩ | ⟨q, hq1, hq2, hq3, hq4, hq5⟩
    · by_cases hc : charAt pattern i = c
      · right
        subst hc
        rw [getD_set_self_int badChar _ _ (by rw [hlen]; exact (charAt pattern i).isLt)] at h1
        exact ⟨i, le_refl _, by omega, h1, rfl, fun k hk1 hk2 => h2 k (by omega) (by omega)⟩
      · left
        rw [getD_set_ne_int badChar _ c.val _ (fun e => hc (Fin.ext e))] at h1
        refine ⟨h1, fun k hk1 hk2 => ?_⟩
        by_cases hki : k = i
        · subst hki; exact hc
        · exact h2 k (by omega) (by omega)
    · right
      exact ⟨q, by omega, by omega, hq3, hq4, fun k hk1 hk2 => hq5 k hk1 (by omega)⟩

/-- C17: `buildBadCharacterTable pattern` has exactly 256 entries, and for every byte `c`
the entry `badChar[c]` is the greatest index `r` with `pattern[r] = c`, or `-1` when `c`
does not occur in `pattern`. -/
theorem buildBadCharacterTable_spec (pattern : CString) :
    (buildBadCharacterTable pattern).length = 256 ∧
    ∀ c : CChar,
      ((buildBadCharacterTable pattern)[c.val]? = some (-1) ∧
        ∀ k, k < pattern.length → charAt pattern k ≠ c) ∨
      (∃ r, r < pattern.length ∧ (buildBadCharacterTable pattern)[c.val]? = some (r : Int) ∧
        charAt pattern r = c ∧ ∀ k, r < k → k < pattern.length → charAt pattern k ≠ c) := by
  have hlen : (buildBadCharacterTable pattern).length = 256 := by
    unfold buildBadCharacterTable
    rw [badCharLoop_length, List.length_replicate]
    rfl
  refine ⟨hlen, fun c => ?_⟩
  have hget : (buildBadCharacterTable pattern)[c.val]?
      = some ((buildBadCharacterTable pattern).getD c.val 0) := by
    rw [List.getD_eq_getElem?_getD, List.getElem?_eq_getElem (by rw [hlen]; exact c.isLt)]
    rfl
  rw [hget]
  have h0 : (List.replicate ASCII_SIZE (-1 : Int)).getD c.val 0 = -1 := by
    rw [List.getD_eq_getElem?_getD, List.getElem?_replicate_of_lt (by
      have := c.isLt; unfold ASCII_SIZE; omega)]
    rfl
  rcases badCharLoop_spec pattern pattern.length 0 (List.replicate ASCII_SIZE (-1)) c
      (by rw [List.length_replicate]; rfl) with ⟨h1, h2⟩ | ⟨r, _, hr2, hr3, hr4, hr5⟩
  · left
    unfold buildBadCharacterTable
    rw [h1, h0]
    exact ⟨rfl, fun k hk => h2 k (Nat.zero_le _) (by omega)⟩
  · right
    unfold buildBadCharacterTable
    exact ⟨r, by omega, by rw [hr3], hr4, fun k hk1 hk2 => hr5 k hk1 (by omega)⟩

set_option maxRecDepth 4096 in
theorem buildBadCharacterTable_spec_witness :
    (buildBadCharacterTable [97, 98, 114, 97]).length = 256 ∧
    (((buildBadCharacterTable [97, 98, 114, 97])[(97 : CChar).val]? = some (-1) ∧
        ∀ k, k < ([97, 98, 114, 97] : CString).length → charAt [97, 98, 114, 97] k ≠ 97) ∨
      (∃ r, r < ([97, 98, 114, 97] : CString).length ∧
        (buildBadCharacterTable [97, 98, 114, 97])[(97 : CChar).val]? = some (r : Int) ∧
        charAt [97, 98, 114, 97] r = 97 ∧
        ∀ k, r < k → k < ([97, 98, 114, 97] : CString).length →
          charAt [97, 98, 114, 97] k ≠ 97)) ∧
    (buildBadCharacterTable [97, 98, 114, 97])[(97 : CChar).val]? = some 3 ∧
    (buildBadCharacterTable [97, 98, 114, 97])[(120 : CChar).val]? = some (-1) :=
  ⟨(buildBadCharacterTable_spec [97, 98, 114, 97]).1,
   (buildBadCharacterTable_spec [97, 98, 114, 97]).2 97, by decide, by decide⟩

/-! ## The last entry of the good-suffix table -/

theorem gsInner_k_le (pattern : CString) (m : Nat) :
    ∀ (j k : Nat) (suffix : List Nat), k ≤ (gsInner pattern m j k suffix).2.1 := by
  intro j
  induction j with
  | zero => intro k suffix; exact le_refl _
  | succ j ih =>
    intro k suffix
    rw [gsInner]
    split
    · exact le_trans (Nat.le_succ k) (ih (k + 1) _)
    · exact le_refl _

theorem gsInner_k_pos (pattern : CString) (m : Nat) (j k : Nat) (suffix : List Nat)
    (hj : 1 ≤ j) (h : (gsInner pattern m j k suffix).1 = 0) :
    k + 1 ≤ (gsInner pattern m j k suffix).2.1 := by
  cases j with
  | zero => omega
  | succ j =>
    rw [gsInner] at h ⊢
    split
    · exact gsInner_k_le pattern m j (k + 1) _
    · rename_i hc
      rw [if_neg hc] at h
      simp at h

theorem gsSuffixLoop_flag_zero (pattern : CString) (m : Nat) :
    ∀ (rem i : Nat) (suffix prefixFlags : List Nat), prefixFlags.getD 0 0 = 0 →
      (gsSuffixLoop pattern m rem i suffix prefixFlags).2.getD 0 0 = 0 := by
  intro rem
  induction rem with
  | zero => intro i suffix prefixFlags h; exact h
  | succ r ih =>
    intro i suffix prefixFlags h
    rw [gsSuffixLoop]
    split
    · rename_i h0
      apply ih
      have := gsInner_k_pos pattern m (i + 1) 0 suffix (by omega) h0
      rw [getD_set_ne prefixFlags _ 0 1 (by omega)]
      exact h
    · exact ih _ _ _ h

theorem gsPrefixShift_length (prefixFlags : List Nat) (m : Nat) :
    ∀ (rem i : Nat) (shift : List Int),
      (gsPrefixShift prefixFlags m rem i shift).length = shift.length := by
  intro rem
  induction rem with
  | zero => intro i shift; rfl
  | succ r ih =>
    intro i shift
    rw [gsPrefixShift]
    split
    · rw [ih, List.length_set]
    · rw [ih]

theorem gsSuffixShift_length (suffix : List Nat) (m : Nat) :
    ∀ (rem i : Nat) (shift : List Int),
      (gsSuffixShift suffix m rem i shift).length = shift.length := by
  intro rem
  induction rem with
  | zero => intro i shift; rfl
  | succ r ih =>
    intro i shift
    rw [gsSuffixShift]
    split
    · rw [ih, List.length_set]
    · rw [ih]

theorem buildGoodSuffixTable_length (pattern : CString) :
    (buildGoodSuffixTable pattern).length = pattern.length := by
  unfold buildGoodSuffixTable
  simp only
  rw [gsSuffixShift_length, gsPrefixShift_length, List.length_replicate]

theorem gsPrefixShift_last (prefixFlags : List Nat) (m : Nat) (h0 : prefixFlags.getD 0 0 = 0) :
    ∀ (rem i : Nat) (shift : List Int), i + rem ≤ m →
      (gsPrefixShift prefixFlags m rem i shift).getD (m - 1) 0 = shift.getD (m - 1) 0 := by
  intro rem
  induction rem with
  | zero => intro i shift _; rfl
  | succ r ih =>
    intro i shift h
    rw [gsPrefixShift]
    split
    · rename_i hf
      have hi : i ≠ 0 := by
        intro e
        subst e
        exact hf h0
      rw [ih (i + 1) _ (by omega), getD_set_ne_int shift _ (m - 1) _ (by omega)]
    · exact ih (i + 1) _ (by omega)

theorem gsSuffixShift_last (suffix : List Nat) (m : Nat) :
    ∀ (rem i : Nat) (shift : List Int), rem ≤ m - 1 →
      (gsSuffixShift suffix m rem i shift).getD (m - 1) 0 = shift.getD (m - 1) 0 := by
  intro rem
  induction rem with
  | zero => intro i shift _; rfl
  | succ r ih =>
    intro i shift h
    rw [gsSuffixShift]
    split
    · rename_i hs
      rw [ih (i + 1) _ (by omega), getD_set_ne_int shift _ (m - 1) _ (by omega)]
    · exact ih (i + 1) _ (by omega)

theorem buildGoodSuffixTable_last (pattern : CString) (hp : pattern.length ≠ 0) :
    (buildGoodSuffixTable pattern).getD (pattern.length - 1) 0 = (pattern.length : Int) := by
  unfold buildGoodSuffixTable
  simp only
  rw [gsSuffixShift_last _ _ _ _ _ (le_refl _),
    gsPrefixShift_last _ _ (gsSuffixLoop_flag_zero pattern _ _ _ _ _ (by
      rw [List.getD_eq_getElem?_getD, List.getElem?_replicate_of_lt (by omega)]; rfl))
      _ _ _ (by omega),
    List.getD_eq_getElem?_getD, List.getElem?_replicate_of_lt (by omega)]
  rfl

theorem buildBadCharacterTable_ge (pattern : CString) (c : CChar) :
    -1 ≤ (buildBadCharacterTable pattern).getD c.val 0 := by
  have h0 : (List.replicate ASCII_SIZE (-1 : Int)).getD c.val 0 = -1 := by
    rw [List.getD_eq_getElem?_getD, List.getElem?_replicate_of_lt (by
      have := c.isLt; unfold ASCII_SIZE; omega)]
    rfl
  unfold buildBadCharacterTable
  rcases badCharLoop_spec pattern pattern.length 0 (List.replicate ASCII_SIZE (-1)) c
      (by rw [List.length_replicate]; rfl) with ⟨h1, _⟩ | ⟨r, _, _, hr3, _⟩
  · rw [h1, h0]
  · rw [hr3]; omega

/-- C18: for a non-empty pattern the entry `m - 1` of `buildGoodSuffixTable pattern` is `m`,
and so an iteration of the scan of `boyerMooreSearch` in which the rightmost character of
the window mismatches moves the window start by exactly `m` (and counts one comparison),
whatever the bad-character table says. -/
theorem goodSuffix_last_entry (pattern : CString) (hp : pattern ≠ []) :
    (buildGoodSuffixTable pattern)[pattern.length - 1]? = some (pattern.length : Int) ∧
    ∀ (text : CString) (fuel i : Nat) (pos : List Int) (cmp : Nat),
      pattern.length ≤ text.length → i ≤ text.length - pattern.length →
      charAt pattern (pattern.length - 1) ≠ charAt text (i + (pattern.length - 1)) →
      bmLoop text pattern (buildBadCharacterTable pattern) (buildGoodSuffixTable pattern)
          text.length pattern.length (fuel + 1) i pos cmp =
        bmLoop text pattern (buildBadCharacterTable pattern) (buildGoodSuffixTable pattern)
          text.length pattern.length fuel (i + pattern.length) pos (cmp + 1) := by
  have hp0 : pattern.length ≠ 0 := fun h => hp (List.length_eq_zero.mp h)
  have hlast := buildGoodSuffixTable_last pattern hp0
  constructor
  · rw [← hlast, List.getD_eq_getElem?_getD,
      List.getElem?_eq_getElem (by rw [buildGoodSuffixTable_length]; omega)]
    rfl
  · intro text fuel i pos cmp hm hi hne
    have hin : bmInner text pattern i pattern.length cmp = (pattern.length, cmp) := by
      obtain ⟨q, hq⟩ : ∃ q, pattern.length = q + 1 := ⟨pattern.length - 1, by omega⟩
      rw [hq] at hne ⊢
      rw [Nat.add_sub_cancel] at hne
      rw [bmInner, if_neg hne]
    rw [bmLoop, if_pos hi]
    simp only [hin]
    rw [if_neg hp0, hlast]
    have h1 := buildBadCharacterTable_ge pattern (charAt text (i + (pattern.length - 1)))
    have e : (max 1 (max (((pattern.length - 1 : Nat) : Int)
        - (buildBadCharacterTable pattern).getD
            (charAt text (i + (pattern.length - 1))).val 0) (pattern.length : Int))).toNat
        = pattern.length := by
      omega
    rw [e]

theorem goodSuffix_last_entry_witness :
    (buildGoodSuffixTable [97, 98])[([97, 98] : CString).length - 1]?
      = some (([97, 98] : CString).length : Int) ∧
    bmLoop [120, 97, 98] [97, 98] (buildBadCharacterTable [97, 98])
        (buildGoodSuffixTable [97, 98]) ([120, 97, 98] : CString).length
        ([97, 98] : CString).length (1 + 1) 0 [] 0 =
      bmLoop [120, 97, 98] [97, 98] (buildBadCharacterTable [97, 98])
        (buildGoodSuffixTable [97, 98]) ([120, 97, 98] : CString).length
        ([97, 98] : CString).length 1 (0 + ([97, 98] : CString).length) [] (0 + 1) :=
  ⟨(goodSuffix_last_entry [97, 98] (by decide)).1,
   (goodSuffix_last_entry [97, 98] (by decide)).2 [120, 97, 98] 1 0 [] 0
     (by decide) (by decide) (by decide)⟩

/-! ## The comparison count of `kmpSearch` -/

theorem kmpFallback_count (pattern : CString) (table : List Nat) (c : CChar)
    (htab : ∀ t, table.getD t 0 ≤ t) :
    ∀ (fuel j cmp : Nat) (x : Nat × Nat),
      kmpFallback pattern table c fuel j cmp = some x → x.1 ≤ j ∧ x.2 + x.1 ≤ cmp + j := by
  intro fuel
  induction fuel with
  | zero => intro j cmp x h; simp [kmpFallback] at h
  | succ f ih =>
    intro j cmp x h
    rw [kmpFallback] at h
    by_cases hc : 0 < j ∧ charAt pattern j ≠ c
    · rw [if_pos hc] at h
      obtain ⟨h1, h2⟩ := ih _ _ x h
      have := htab (j - 1)
      constructor <;> omega
    · rw [if_neg hc] at h
      have := Option.some.inj h
      subst this
      exact ⟨le_refl _, le_refl _⟩

theorem getD_set_le (table : List Nat) (i v : Nat) (hv : v ≤ i)
    (htab : ∀ t, table.getD t 0 ≤ t) : ∀ t, (table.set i v).getD t 0 ≤ t := by
  intro t
  by_cases ht : i = t
  · subst ht
    by_cases hl : i < table.length
    · rw [getD_set_self table i v hl]; exact hv
    · rw [List.set_eq_of_length_le (by omega)]; exact htab i
  · rw [getD_set_ne table i t v ht]; exact htab t

theorem kmpPrefixLoop_count (pattern : CString) (fuel : Nat) :
    ∀ (rem i length : Nat) (table : List Nat) (cmp : Nat) (x : List Nat × Nat),
      kmpPrefixLoop pattern fuel rem i length table cmp = some x →
      length < i → (∀ t, table.getD t 0 ≤ t) →
      x.2 ≤ cmp + length + 2 * rem ∧ ∀ t, x.1.getD t 0 ≤ t := by
  intro rem
  induction rem with
  | zero =>
    intro i length table cmp x h _ htab
    simp only [kmpPrefixLoop] at h
    have := Option.some.inj h
    subst this
    exact ⟨by omega, htab⟩
  | succ r ih =>
    intro i length table cmp x h hl htab
    simp only [kmpPrefixLoop] at h
    cases hF : kmpFallback pattern table (charAt pattern i) fuel length cmp with
    | none => rw [hF] at h; simp at h
    | some y =>
      rw [hF] at h
      simp only at h
      obtain ⟨h1, h2⟩ := kmpFallback_count pattern table _ htab fuel length cmp y hF
      generalize hL : (if charAt pattern y.1 = charAt pattern i then y.1 + 1 else y.1) = L at h
      have hLle : L ≤ y.1 + 1 := by
        rw [← hL]; split <;> omega
      obtain ⟨h3, h4⟩ := ih (i + 1) L (table.set i L) (y.2 + 1) x h (by omega)
        (getD_set_le table i L (by omega) htab)
      exact ⟨by omega, h4⟩

theorem kmpScan_count (text pattern : CString) (table : List Nat) (fuel : Nat)
    (htab : ∀ t, table.getD t 0 ≤ t) :
    ∀ (rem i j : Nat) (pos : List Int) (cmp : Nat) (x : List Int × Nat),
      kmpScan text pattern table fuel rem i j pos cmp = some x →
      x.2 ≤ cmp + j + 2 * rem := by
  intro rem
  induction rem with
  | zero =>
    intro i j pos cmp x h
    simp only [kmpScan] at h
    have := Option.some.inj h
    subst this
    simp
  | succ r ih =>
    intro i j pos cmp x h
    simp only [kmpScan] at h
    cases hF : kmpFallback pattern table (charAt text i) fuel j cmp with
    | none => rw [hF] at h; simp at h
    | some y =>
      rw [hF] at h
      simp only at h
      obtain ⟨h1, h2⟩ := kmpFallback_count pattern table _ htab fuel j cmp y hF
      generalize hJ : (if charAt pattern y.1 = charAt text i then y.1 + 1 else y.1) = J at h
      have hJle : J ≤ y.1 + 1 := by
        rw [← hJ]; split <;> omega
      by_cases hc : J = pattern.length
      · rw [if_pos hc] at h
        have h3 := ih _ _ _ _ x h
        have := htab (J - 1)
        omega
      · rw [if_neg hc] at h
        have h3 := ih _ _ _ _ x h
        omega

theorem replicate_zero_getD_le (m : Nat) :
    ∀ t, ((List.replicate m 0).set 0 0 : List Nat).getD t 0 ≤ t := by
  apply getD_set_le _ 0 0 (le_refl _)
  intro t
  rw [List.getD_eq_getElem?_getD, List.getElem?_replicate]
  split <;> simp

/-- C19: for a non-empty pattern no longer than the text, `kmpSearch` returns (given fuel
`|pattern|`), and the comparison count of any result it returns, table construction
included, is at most `2 * (n + m)`. -/
theorem kmpSearch_comparisons_le (text pattern : CString) (hp : pattern ≠ [])
    (hm : pattern.length ≤ text.length) :
    (∀ fuel, pattern.length ≤ fuel → ∃ r, kmpSearch fuel text pattern = some r) ∧
    (∀ fuel r, kmpSearch fuel text pattern = some r →
      r.characterComparisons ≤ 2 * (text.length + pattern.length)) := by
  have hp0 : pattern.length ≠ 0 := fun h => hp (List.length_eq_zero.mp h)
  refine ⟨fun fuel hf => kmpSearch_returns text pattern fuel hf, fun fuel r h => ?_⟩
  unfold kmpSearch at h
  rw [if_neg (by omega)] at h
  cases hT : buildKmpPrefix fuel pattern 0 with
  | none => rw [hT] at h; simp at h
  | some t =>
    rw [hT] at h
    simp only at h
    unfold buildKmpPrefix at hT
    rw [if_neg hp0] at hT
    obtain ⟨ht1, ht2⟩ := kmpPrefixLoop_count pattern fuel _ _ _ _ _ t hT (by omega)
      (replicate_zero_getD_le pattern.length)
    cases hS : kmpScan text pattern t.1 fuel text.length 0 0 [] 0 with
    | none => rw [hS] at h; simp at h
    | some y =>
      rw [hS] at h
      have hs := kmpScan_count text pattern t.1 fuel ht2 _ _ _ _ _ y hS
      have := Option.some.inj h
      subst this
      simp only
      omega

theorem kmpSearch_comparisons_le_witness :
    (∃ r, kmpSearch 2 [97, 97, 97, 97, 97, 97] [97, 97] = some r) ∧
    (SearchResult.mk "Knuth-Morris-Pratt" [0, 1, 2, 3, 4] 7).characterComparisons
      ≤ 2 * (([97, 97, 97, 97, 97, 97] : CString).length + ([97, 97] : CString).length) :=
  ⟨(kmpSearch_comparisons_le [97, 97, 97, 97, 97, 97] [97, 97] (by decide) (by decide)).1 2
     (by decide),
   (kmpSearch_comparisons_le [97, 97, 97, 97, 97, 97] [97, 97] (by decide) (by decide)).2 2
     (SearchResult.mk "Knuth-Morris-Pratt" [0, 1, 2, 3, 4] 7) (by decide)⟩

/-! ## The comparison count of `sundaySearch` -/

theorem sundayInner_count (text pattern : CString) (i : Nat)
    (hi : i + pattern.length ≤ text.length) :
    ∀ (rem j cmp : Nat), rem + j = pattern.length →
      (sundayInner text pattern i rem j cmp).2 =
        cmp + lcpLen ((text.drop (i + j)).take rem) (pattern.drop j) := by
  intro rem
  induction rem with
  | zero => intro j cmp _; simp [sundayInner, lcpLen]
  | succ r ih =>
    intro j cmp h
    rw [drop_eq_charAt_cons text (i + j) (by omega), drop_eq_charAt_cons pattern j (by omega),
      List.take_succ_cons, lcpLen, sundayInner]
    by_cases hc : charAt text (i + j) = charAt pattern j
    · rw [if_pos hc, if_pos hc, ih (j + 1) (cmp + 1) (by omega)]
      have e : i + (j + 1) = i + j + 1 := by omega
      rw [e]
      omega
    · rw [if_neg hc, if_neg hc]
      rfl

/-- C15 (the code departs from it): `sundaySearch` does not count the comparison that
ends a mismatching window. On `("abc", "xyz")` the comparison of `'a'` with `'x'` is made
and the count is `0`; on `("abcdef", "xyz")` that comparison and one look-ahead are made
and the count is `1`; on `("abab", "ab")` both windows match and the count is
`2 + 1 + 2 = 5`. -/
theorem sundaySearch_count_skips_mismatch :
    (∀ fuel, sundaySearch (fuel + 1) [97, 98, 99] [120, 121, 122]
      = some { algorithmName := "Sunday", positions := [], characterComparisons := 0 }) ∧
    (∀ fuel, sundaySearch (fuel + 2) [97, 98, 99, 100, 101, 102] [120, 121, 122]
      = some { algorithmName := "Sunday", positions := [], characterComparisons := 1 }) ∧
    (∀ fuel, sundaySearch (fuel + 2) [97, 98, 97, 98] [97, 98]
      = some { algorithmName := "Sunday", positions := [0, 2], characterComparisons := 5 }) ∧
    (sundayInner [97, 98, 99] [120, 121, 122] 0 3 0 0).2 = 0 ∧
    (bruteInner [97, 98, 99] [120, 121, 122] 0 3 0 0).2 = 1 := by
  refine ⟨fun fuel => rfl, fun fuel => rfl, fun fuel => rfl, by decide, by decide⟩

/-! ## The rolling hash of `rabinKarpSearch` -/

theorem wrap32_eq (x : Int) (h1 : -2147483648 ≤ x) (h2 : x < 2147483648) : wrap32 x = x := by
  unfold wrap32
  omega

theorem cmod_bounds (x M : Int) (hM : 0 < M) : -M < cmod x M ∧ cmod x M < M := by
  refine ⟨?_, Int.tmod_lt_of_pos x hM⟩
  unfold cmod
  cases x with
  | ofNat n =>
    have := Int.tmod_nonneg M (Int.ofNat_nonneg n)
    simp only [Int.ofNat_eq_coe] at this ⊢
    omega
  | negSucc n =>
    cases M with
    | ofNat k =>
      have hk : 0 < k := by
        simp only [Int.ofNat_eq_coe] at hM
        omega
      have := Nat.mod_lt (Nat.succ n) hk
      show -(Int.ofNat k) < -Int.ofNat (Nat.succ n % k)
      simp only [Int.ofNat_eq_coe]
      omega
    | negSucc k =>
      have := Int.negSucc_lt_zero k
      omega

theorem cmod_modEq (x M : Int) : cmod x M % M = x % M := by
  have h := Int.tmod_add_tdiv x M
  unfold cmod
  conv_rhs => rw [← h]
  rw [Int.add_mul_emod_self_left]

theorem cmod_eq_emod (x M : Int) (hx : 0 ≤ x) (hM : 0 < M) : cmod x M = x % M :=
  Int.tmod_eq_emod hx (Int.le_of_lt hM)

/-- The normalisation `if (t < 0) t += modulus` turns the truncated remainder into the
remainder in `[0, modulus)`. -/
theorem cmod_normalise (x M : Int) (hM : 0 < M) :
    (if cmod x M < 0 then cmod x M + M else cmod x M) = x % M := by
  obtain ⟨h1, h2⟩ := cmod_bounds x M hM
  rw [← cmod_modEq x M]
  split
  · rename_i hneg
    rw [← Int.add_emod_self, Int.emod_eq_of_lt (by omega) (by omega)]
  · rename_i hneg
    rw [Int.emod_eq_of_lt (by omega) h2]

theorem polyHash_append (base : Int) (w : CString) (c : CChar) :
    polyHash base (w ++ [c]) = base * polyHash base w + charToInt c := by
  unfold polyHash
  rw [List.foldl_append]
  rfl

theorem foldl_horner (base : Int) (w : CString) :
    ∀ h0 : Int, w.foldl (fun h c => base * h + charToInt c) h0
      = h0 * base ^ w.length + w.foldl (fun h c => base * h + charToInt c) 0 := by
  induction w with
  | nil => intro h0; simp
  | cons a w ih =>
    intro h0
    rw [List.foldl_cons, List.foldl_cons, ih (base * h0 + charToInt a),
      ih (base * 0 + charToInt a), List.length_cons, pow_succ]
    ring

theorem polyHash_cons (base : Int) (c : CChar) (w : CString) :
    polyHash base (c :: w) = charToInt c * base ^ w.length + polyHash base w := by
  unfold polyHash
  rw [List.foldl_cons, foldl_horner base w (base * 0 + charToInt c)]
  ring

theorem charToInt_ascii (c : CChar) (h : c.val < 128) :
    0 ≤ charToInt c ∧ charToInt c ≤ 127 := by
  unfold charToInt
  rw [if_pos h]
  omega

theorem charAt_mem (s : CString) (i : Nat) (h : i < s.length) : charAt s i ∈ s := by
  rw [charAt_eq_getElem s i h]
  exact List.getElem_mem h

theorem rkHornerStep_eq (base M h : Int) (c : CChar) (hb : 0 < base) (hM : 0 < M)
    (hB : 128 * (base * M) ≤ 2147483648) (hh0 : 0 ≤ h) (hh1 : h < M) (hc : c.val < 128) :
    rkHornerStep base M h c = (base * h + charToInt c) % M := by
  obtain ⟨hc0, hc1⟩ := charToInt_ascii c hc
  have h1 : 0 ≤ base * h := Int.mul_nonneg (Int.le_of_lt hb) hh0
  have h2 : base * h ≤ base * M := Int.mul_le_mul_of_nonneg_left (Int.le_of_lt hh1) (Int.le_of_lt hb)
  have h3 : 1 ≤ base * M := Int.mul_pos hb hM
  unfold rkHornerStep
  rw [wrap32_eq (base * h) (by omega) (by omega), wrap32_eq _ (by omega) (by omega),
    cmod_eq_emod _ M (by omega) hM]

theorem rkHighestPower_spec (base M : Int) (hb : 0 < base) (hM : 0 < M)
    (hB : 128 * (base * M) ≤ 2147483648) :
    ∀ (k : Nat) (hp : Int), 0 ≤ hp → hp ≤ M →
      0 ≤ rkHighestPower base M k hp ∧ rkHighestPower base M k hp ≤ M ∧
      rkHighestPower base M k hp % M = (hp * base ^ k) % M := by
  intro k
  induction k with
  | zero => intro hp h0 h1; simp [rkHighestPower, h0, h1]
  | succ k ih =>
    intro hp h0 h1
    have h2 : 0 ≤ hp * base := Int.mul_nonneg h0 (Int.le_of_lt hb)
    have h3 : hp * base ≤ M * base := Int.mul_le_mul_of_nonneg_right h1 (Int.le_of_lt hb)
    have h4 : M * base = base * M := Int.mul_comm _ _
    have h5 : 1 ≤ base * M := Int.mul_pos hb hM
    rw [rkHighestPower, wrap32_eq (hp * base) (by omega) (by omega),
      cmod_eq_emod _ M h2 hM]
    obtain ⟨i1, i2, i3⟩ := ih ((hp * base) % M) (Int.emod_nonneg _ (by omega))
      (Int.le_of_lt (Int.emod_lt_of_pos _ hM))
    refine ⟨i1, i2, ?_⟩
    rw [i3, pow_succ, Int.mul_emod, Int.emod_emod_of_dvd _ (Int.dvd_refl M), ← Int.mul_emod]
    congr 1
    ring

theorem horner_emod (base P c M : Int) : (base * (P % M) + c) % M = (base * P + c) % M := by
  rw [Int.add_emod, Int.mul_emod, Int.emod_emod_of_dvd _ (Int.dvd_refl M), ← Int.mul_emod,
    ← Int.add_emod]

theorem rkInitHashes_spec (text pattern : CString) (base M : Int) (hb : 0 < base) (hM : 0 < M)
    (hB : 128 * (base * M) ≤ 2147483648) (ht : ∀ c ∈ text, c.val < 128)
    (hpt : ∀ c ∈ pattern, c.val < 128) (hm : pattern.length ≤ text.length) :
    ∀ (rem i : Nat) (h : Int × Int), i + rem ≤ pattern.length →
      h.1 = polyHash base (pattern.take i) % M → h.2 = polyHash base (text.take i) % M →
      rkInitHashes text pattern base M rem i h =
        (polyHash base (pattern.take (i + rem)) % M, polyHash base (text.take (i + rem)) % M) := by
  intro rem
  induction rem with
  | zero => intro i h _ h1 h2; rw [rkInitHashes, Nat.add_zero, ← h1, ← h2]
  | succ r ih =>
    intro i h hi h1 h2
    rw [rkInitHashes, ih (i + 1) _ (by omega)]
    · rw [show i + 1 + r = i + (r + 1) by omega]
    · simp only
      rw [rkHornerStep_eq base M h.1 _ hb hM hB (by rw [h1]; exact Int.emod_nonneg _ (by omega))
          (by rw [h1]; exact Int.emod_lt_of_pos _ hM)
          (hpt _ (charAt_mem pattern i (by omega))),
        h1, horner_emod, take_succ_charAt pattern i (by omega), polyHash_append]
    · simp only
      rw [rkHornerStep_eq base M h.2 _ hb hM hB (by rw [h2]; exact Int.emod_nonneg _ (by omega))
          (by rw [h2]; exact Int.emod_lt_of_pos _ hM)
          (ht _ (charAt_mem text i (by omega))),
        h2, horner_emod, take_succ_charAt text i (by omega), polyHash_append]

theorem charAt_drop (s : CString) (i k : Nat) : charAt (s.drop i) k = charAt s (i + k) := by
  unfold charAt
  rw [List.getD_eq_getElem?_getD, List.getD_eq_getElem?_getD, List.getElem?_drop]

theorem window_cons (text : CString) (i m : Nat) (hi : i < text.length) :
    (text.drop i).take (m + 1) = charAt text i :: (text.drop (i + 1)).take m := by
  rw [drop_eq_charAt_cons text i hi, List.take_succ_cons]

theorem window_snoc (text : CString) (i m : Nat) (hi : i + m + 1 < text.length) :
    (text.drop (i + 1)).take (m + 1)
      = (text.drop (i + 1)).take m ++ [charAt text (i + (m + 1))] := by
  rw [take_succ_charAt (text.drop (i + 1)) m (by rw [List.length_drop]; omega), charAt_drop]
  congr 3
  omega

theorem rkRoll_spec (text : CString) (base M hp : Int) (hb : 0 < base) (hM : 0 < M)
    (hB : 128 * (base * M) ≤ 2147483648) (ht : ∀ c ∈ text, c.val < 128)
    (m i : Nat) (th : Int) (hm : 1 ≤ m) (hi : i + m < text.length)
    (hth : th = polyHash base ((text.drop i).take m) % M)
    (hp0 : 0 ≤ hp) (hp1 : hp ≤ M) (hpe : hp % M = base ^ (m - 1) % M) :
    rkRoll text base M hp m i th = polyHash base ((text.drop (i + 1)).take m) % M := by
  obtain ⟨q, rfl⟩ : ∃ q, m = q + 1 := ⟨m - 1, by omega⟩
  rw [Nat.add_sub_cancel] at hpe
  rw [window_cons text i q (by omega)] at hth
  rw [window_snoc text i q (by omega), polyHash_append]
  rw [polyHash_cons] at hth
  have hwl : ((text.drop (i + 1)).take q).length = q := by
    rw [List.length_take, List.length_drop]; omega
  rw [hwl] at hth
  obtain ⟨c0a, c0b⟩ := charToInt_ascii (charAt text i) (ht _ (charAt_mem text i (by omega)))
  obtain ⟨cna, cnb⟩ := charToInt_ascii (charAt text (i + (q + 1)))
    (ht _ (charAt_mem text _ (by omega)))
  have t0 : 0 ≤ th := by rw [hth]; exact Int.emod_nonneg _ (by omega)
  have t1 : th < M := by rw [hth]; exact Int.emod_lt_of_pos _ hM
  have hbM : 1 ≤ base * M := Int.mul_pos hb hM
  have hMle : M ≤ base * M := by
    have := Int.mul_le_mul_of_nonneg_right (show (1 : Int) ≤ base by omega) (Int.le_of_lt hM)
    omega
  -- the product `text[i] * highestPower`
  have p0 : 0 ≤ charToInt (charAt text i) * hp := Int.mul_nonneg c0a hp0
  have p1 : charToInt (charAt text i) * hp ≤ 127 * M := by
    have a1 := Int.mul_le_mul_of_nonneg_right c0b hp0
    have a2 := Int.mul_le_mul_of_nonneg_left hp1 (show (0 : Int) ≤ 127 by omega)
    omega
  have e1 : wrap32 (charToInt (charAt text i) * hp) = charToInt (charAt text i) * hp :=
    wrap32_eq _ (by omega) (by omega)
  have e2 : wrap32 (th - charToInt (charAt text i) * hp)
      = th - charToInt (charAt text i) * hp := wrap32_eq _ (by omega) (by omega)
  -- the product with `base`
  have d0 : -(127 * (base * M)) ≤ base * (th - charToInt (charAt text i) * hp) := by
    have := Int.mul_le_mul_of_nonneg_left
      (show -(127 * M) ≤ th - charToInt (charAt text i) * hp by omega) (Int.le_of_lt hb)
    have e : base * -(127 * M) = -(127 * (base * M)) := by ring
    omega
  have d1 : base * (th - charToInt (charAt text i) * hp) ≤ base * M :=
    Int.mul_le_mul_of_nonneg_left (by omega) (Int.le_of_lt hb)
  have e3 : wrap32 (base * (th - charToInt (charAt text i) * hp))
      = base * (th - charToInt (charAt text i) * hp) := wrap32_eq _ (by omega) (by omega)
  have e4 : wrap32 (base * (th - charToInt (charAt text i) * hp)
        + charToInt (charAt text (i + (q + 1))))
      = base * (th - charToInt (charAt text i) * hp)
        + charToInt (charAt text (i + (q + 1))) := wrap32_eq _ (by omega) (by omega)
  unfold rkRoll
  simp only
  rw [e1, e2, e3, e4]
  obtain ⟨b1, b2⟩ := cmod_bounds (base * (th - charToInt (charAt text i) * hp)
    + charToInt (charAt text (i + (q + 1)))) M hM
  rw [wrap32_eq (cmod _ M + M) (by omega) (by omega), cmod_normalise _ M hM]
  -- congruence of the value with the Horner polynomial of the next window
  have c1 : th ≡ charToInt (charAt text i) * base ^ q
      + polyHash base ((text.drop (i + 1)).take q) [ZMOD M] := by
    rw [hth]; exact Int.mod_modEq _ _
  have c2 : hp ≡ base ^ q [ZMOD M] := hpe
  have c3 := (((c1.sub (c2.mul_left (charToInt (charAt text i)))).mul_left base).add_right
    (charToInt (charAt text (i + (q + 1)))))
  have e5 : base * (charToInt (charAt text i) * base ^ q
        + polyHash base ((text.drop (i + 1)).take q)
        - charToInt (charAt text i) * base ^ q) + charToInt (charAt text (i + (q + 1)))
      = base * polyHash base ((text.drop (i + 1)).take q)
        + charToInt (charAt text (i + (q + 1))) := by ring
  rw [e5] at c3
  exact c3

theorem rkVerify_true (text pattern : CString) (i : Nat) :
    ∀ (rem j cmp : Nat),
      (∀ k, j ≤ k → k < j + rem → charAt text (i + k) = charAt pattern k) →
      (rkVerify text pattern i rem j cmp).1 = true := by
  intro rem
  induction rem with
  | zero => intro j cmp _; rfl
  | succ r ih =>
    intro j cmp h
    rw [rkVerify, if_neg (not_not.mpr (h j (le_refl _) (by omega)))]
    exact ih (j + 1) (cmp + 1) (fun k h1 h2 => h k (by omega) (by omega))

theorem rkLoop_positions (text pattern : CString) (base M hp : Int) (hb : 0 < base)
    (hM : 0 < M) (hB : 128 * (base * M) ≤ 2147483648) (ht : ∀ c ∈ text, c.val < 128)
    (hp0 : pattern.length ≠ 0) (hm : pattern.length ≤ text.length)
    (hh0 : 0 ≤ hp) (hh1 : hp ≤ M) (hhe : hp % M = base ^ (pattern.length - 1) % M) :
    ∀ (rem i : Nat) (th : Int) (pos : List Int) (cmp : Nat),
      i + rem = text.length - pattern.length + 1 →
      (1 ≤ rem → th = polyHash base ((text.drop i).take pattern.length) % M) →
      (rkLoop text pattern base M hp (polyHash base pattern % M) text.length pattern.length
          rem i th pos cmp).1 = pos ++ occFrom text pattern i rem := by
  intro rem
  induction rem with
  | zero => intro i th pos cmp _ _; simp [rkLoop, occFrom_zero]
  | succ r ih =>
    intro i th pos cmp hi hth
    have hth' := hth (by omega)
    rw [rkLoop, occFrom_succ]
    have hv : (if polyHash base pattern % M = th
          then rkVerify text pattern i pattern.length 0 cmp else (false, cmp)).1 = true
        ↔ OccursAt text pattern i := by
      constructor
      · intro h
        by_cases hh : polyHash base pattern % M = th
        · rw [if_pos hh] at h
          rw [occursAt_iff]
          have := ((rkVerify_spec text pattern i pattern.length 0 cmp (by omega)).1 h).1
          exact ⟨by omega, fun k hk => this k (Nat.zero_le _) hk⟩
        · rw [if_neg hh] at h
          simp at h
      · intro ho
        have hw : (text.drop i).take pattern.length = pattern := ho.2
        rw [if_pos (by rw [hth', hw])]
        apply rkVerify_true
        intro k _ hk
        exact ((occursAt_iff text pattern i).mp ho).2 k (by omega)
    have hnext : 1 ≤ r →
        (if i < text.length - pattern.length
          then rkRoll text base M hp pattern.length i th else th)
          = polyHash base ((text.drop (i + 1)).take pattern.length) % M := by
      intro hr
      rw [if_pos (by omega)]
      exact rkRoll_spec text base M hp hb hM hB ht pattern.length i th (by omega) (by omega)
        hth' hh0 hh1 hhe
    by_cases ho : OccursAt text pattern i
    · rw [if_pos (hv.mpr ho), if_pos ho, ih (i + 1) _ _ _ (by omega) hnext, List.append_assoc]
    · rw [if_neg (fun h => ho (hv.mp h)), if_neg ho, ih (i + 1) _ _ _ (by omega) hnext,
        List.nil_append]

/-- With positive `base` and `modulus`, `128 * base * modulus ≤ 2 ^ 31` (no `int`
overflows) and bytes below 128 only, `rabinKarpSearch` has the positions of
`bruteForceSearch`. -/
theorem rabinKarpSearch_positions (text pattern : CString) (base M : Int) (hb : 0 < base)
    (hM : 0 < M) (hB : 128 * (base * M) ≤ 2147483648) (ht : ∀ c ∈ text, c.val < 128)
    (hpt : ∀ c ∈ pattern, c.val < 128) :
    (rabinKarpSearch text pattern base M).positions
      = (bruteForceSearch text pattern).positions := by
  by_cases hd : pattern.length = 0 ∨ text.length < pattern.length
  · unfold rabinKarpSearch bruteForceSearch
    rw [if_pos hd, if_pos hd]
  · have hp0 : pattern.length ≠ 0 := by omega
    have hm : pattern.length ≤ text.length := by omega
    rw [bruteForceSearch_positions text pattern hp0 hm]
    unfold rabinKarpSearch occurrences
    rw [if_neg hd]
    simp only
    have hinit := rkInitHashes_spec text pattern base M hb hM hB ht hpt hm pattern.length 0
      (0, 0) (by omega) (by simp [polyHash]) (by simp [polyHash])
    rw [Nat.zero_add, List.take_length] at hinit
    obtain ⟨q1, q2, q3⟩ := rkHighestPower_spec base M hb hM hB (pattern.length - 1) 1
      (by omega) (by omega)
    rw [Int.one_mul] at q3
    rw [hinit]
    simp only
    rw [rkLoop_positions text pattern base M _ hb hM hB ht hp0 hm q1 q2 q3 _ 0 _ [] 0
      (by omega) (fun _ => by rw [List.drop_zero]), List.nil_append]

/-! ## Every index of the Boyer-Moore code is in bounds -/

theorem readAt_nat {α : Type} (v : List α) (k : Nat) (d : α) (h : k < v.length) :
    readAt v (k : Int) = some (v.getD k d) := by
  unfold readAt
  rw [if_pos ⟨by omega, by omega⟩, Int.toNat_natCast, List.getD_eq_getElem?_getD,
    List.getElem?_eq_getElem h]
  rfl

theorem readAt_charAt (s : CString) (k : Nat) (h : k < s.length) :
    readAt s (k : Int) = some (charAt s k) :=
  readAt_nat s k 0 h

theorem writeAt_nat {α : Type} (v : List α) (lo : Int) (k : Nat) (a : α) (h1 : lo ≤ (k : Int))
    (h2 : k < v.length) : writeAt v lo (k : Int) a = some (v.set k a) := by
  unfold writeAt
  rw [if_pos ⟨h1, by omega, by omega⟩, Int.toNat_natCast]

theorem gsInner_length (pattern : CString) (m : Nat) :
    ∀ (j k : Nat) (suffix : List Nat),
      (gsInner pattern m j k suffix).2.2.length = suffix.length := by
  intro j
  induction j with
  | zero => intro k suffix; rfl
  | succ j ih =>
    intro k suffix
    rw [gsInner]
    split
    · rw [ih, List.length_set]
    · rfl

theorem gsInner_k_le_add (pattern : CString) (m : Nat) :
    ∀ (j k : Nat) (suffix : List Nat), (gsInner pattern m j k suffix).2.1 ≤ k + j := by
  intro j
  induction j with
  | zero => intro k suffix; exact Nat.le_refl _
  | succ j ih =>
    intro k suffix
    rw [gsInner]
    split
    · have := ih (k + 1) (suffix.set (k + 1) j); omega
    · simp only; omega

theorem getD_set_le_bound (l : List Nat) (i v B : Nat) (hv : v ≤ B)
    (h : ∀ t, l.getD t 0 ≤ B) : ∀ t, (l.set i v).getD t 0 ≤ B := by
  intro t
  by_cases ht : i = t
  · subst ht
    by_cases hl : i < l.length
    · rw [getD_set_self l i v hl]; exact hv
    · rw [List.set_eq_of_length_le (by omega)]; exact h i
  · rw [getD_set_ne l i t v ht]; exact h t

theorem gsInner_entries_le (pattern : CString) (m B : Nat) :
    ∀ (j k : Nat) (suffix : List Nat), j ≤ B + 1 → (∀ t, suffix.getD t 0 ≤ B) →
      ∀ t, (gsInner pattern m j k suffix).2.2.getD t 0 ≤ B := by
  intro j
  induction j with
  | zero => intro k suffix _ h; exact h
  | succ j ih =>
    intro k suffix hj h
    rw [gsInner]
    split
    · exact ih (k + 1) _ (by omega) (getD_set_le_bound suffix _ j B (by omega) h)
    · exact h

theorem gsInnerChecked_eq (pattern : CString) :
    ∀ (j k : Nat) (suffix : List Nat), j + k + 1 ≤ pattern.length →
      suffix.length = pattern.length →
      gsInnerChecked pattern pattern.length j k suffix
        = some (gsInner pattern pattern.length j k suffix) := by
  intro j
  induction j with
  | zero => intro k suffix _ _; rfl
  | succ j ih =>
    intro k suffix h hl
    have e : (pattern.length : Int) - 1 - (k : Int) = ((pattern.length - 1 - k : Nat) : Int) := by
      omega
    have e2 : (k : Int) + 1 = ((k + 1 : Nat) : Int) := by omega
    rw [gsInnerChecked, gsInner, e, e2, readAt_charAt pattern j (by omega),
      readAt_charAt pattern (pattern.length - 1 - k) (by omega)]
    simp only
    by_cases hc : charAt pattern j = charAt pattern (pattern.length - 1 - k)
    · rw [if_pos hc, if_pos hc, writeAt_nat suffix 1 (k + 1) j (by omega) (by omega)]
      simp only
      exact ih (k + 1) _ (by omega) (by rw [List.length_set]; exact hl)
    · rw [if_neg hc, if_neg hc]

theorem gsSuffixLoop_spec (pattern : CString) (m : Nat) :
    ∀ (rem i : Nat) (suffix prefixFlags : List Nat), i + rem + 1 ≤ m →
      (∀ t, suffix.getD t 0 ≤ m - 1) →
      (gsSuffixLoop pattern m rem i suffix prefixFlags).1.length = suffix.length ∧
      (gsSuffixLoop pattern m rem i suffix prefixFlags).2.length = prefixFlags.length ∧
      ∀ t, (gsSuffixLoop pattern m rem i suffix prefixFlags).1.getD t 0 ≤ m - 1 := by
  intro rem
  induction rem with
  | zero => intro i suffix prefixFlags _ h; exact ⟨rfl, rfl, h⟩
  | succ r ih =>
    intro i suffix prefixFlags hi h
    have hlen := gsInner_length pattern m (i + 1) 0 suffix
    have hent := gsInner_entries_le pattern m (m - 1) (i + 1) 0 suffix (by omega) h
    rw [gsSuffixLoop]
    split
    · obtain ⟨h1, h2, h3⟩ := ih (i + 1) (gsInner pattern m (i + 1) 0 suffix).2.2
        (prefixFlags.set (gsInner pattern m (i + 1) 0 suffix).2.1 1) (by omega) hent
      exact ⟨by rw [h1, hlen], by rw [h2, List.length_set], h3⟩
    · obtain ⟨h1, h2, h3⟩ := ih (i + 1) (gsInner pattern m (i + 1) 0 suffix).2.2
        prefixFlags (by omega) hent
      exact ⟨by rw [h1, hlen], h2, h3⟩

theorem gsSuffixLoopChecked_eq (pattern : CString) :
    ∀ (rem i : Nat) (suffix prefixFlags : List Nat), i + rem + 1 ≤ pattern.length →
      suffix.length = pattern.length → prefixFlags.length = pattern.length →
      gsSuffixLoopChecked pattern pattern.length rem i suffix prefixFlags
        = some (gsSuffixLoop pattern pattern.length rem i suffix prefixFlags) := by
  intro rem
  induction rem with
  | zero => intro i suffix prefixFlags _ _ _; rfl
  | succ r ih =>
    intro i suffix prefixFlags hi hs hf
    have hlen := gsInner_length pattern pattern.length (i + 1) 0 suffix
    rw [gsSuffixLoopChecked, gsSuffixLoop, gsInnerChecked_eq pattern (i + 1) 0 suffix (by omega) hs]
    simp only
    by_cases h0 : (gsInner pattern pattern.length (i + 1) 0 suffix).1 = 0
    · have k1 := gsInner_k_pos pattern pattern.length (i + 1) 0 suffix (by omega) h0
      have k2 := gsInner_k_le_add pattern pattern.length (i + 1) 0 suffix
      rw [if_pos h0, if_pos h0, writeAt_nat prefixFlags 1 _ 1 (by omega) (by omega)]
      simp only
      exact ih (i + 1) _ _ (by omega) (by rw [hlen, hs]) (by rw [List.length_set, hf])
    · rw [if_neg h0, if_neg h0]
      exact ih (i + 1) _ _ (by omega) (by rw [hlen, hs]) hf

theorem gsPrefixShiftChecked_eq (prefixFlags : List Nat) (m : Nat)
    (hf : prefixFlags.length = m) :
    ∀ (rem i : Nat) (shift : List Int), i + rem ≤ m → shift.length = m →
      gsPrefixShiftChecked prefixFlags m rem i shift
        = some (gsPrefixShift prefixFlags m rem i shift) := by
  intro rem
  induction rem with
  | zero => intro i shift _ _; rfl
  | succ r ih =>
    intro i shift hi hs
    have e : (m : Int) - 1 - (i : Int) = ((m - 1 - i : Nat) : Int) := by omega
    rw [gsPrefixShiftChecked, gsPrefixShift, readAt_nat prefixFlags i 0 (by omega)]
    simp only
    by_cases hc : prefixFlags.getD i 0 ≠ 0
    · rw [if_pos hc, if_pos hc]
      have hw := writeAt_nat shift 0 (m - 1 - i) ((m : Int) - 1 - (i : Int)) (by omega)
        (by omega)
      rw [← e] at hw
      rw [hw]
      simp only
      exact ih (i + 1) _ (by omega) (by rw [List.length_set]; exact hs)
    · rw [if_neg hc, if_neg hc]
      exact ih (i + 1) _ (by omega) hs

theorem gsSuffixShiftChecked_eq (suffix : List Nat) (m : Nat) (hf : suffix.length = m)
    (hent : ∀ t, suffix.getD t 0 ≤ m - 1) :
    ∀ (rem i : Nat) (shift : List Int), i + rem ≤ m → shift.length = m →
      gsSuffixShiftChecked suffix m rem i shift
        = some (gsSuffixShift suffix m rem i shift) := by
  intro rem
  induction rem with
  | zero => intro i shift _ _; rfl
  | succ r ih =>
    intro i shift hi hs
    have hsl := hent i
    have e : (m : Int) - 1 - ((suffix.getD i 0 : Nat) : Int)
        = ((m - 1 - suffix.getD i 0 : Nat) : Int) := by omega
    rw [gsSuffixShiftChecked, gsSuffixShift, readAt_nat suffix i 0 (by omega)]
    simp only
    by_cases hc : suffix.getD i 0 ≠ 0
    · rw [if_pos hc, if_pos hc]
      have hw := writeAt_nat shift 0 (m - 1 - suffix.getD i 0) ((m : Int) - 1 - (i : Int))
        (by omega) (by omega)
      rw [← e] at hw
      rw [hw]
      simp only
      exact ih (i + 1) _ (by omega) (by rw [List.length_set]; exact hs)
    · rw [if_neg hc, if_neg hc]
      exact ih (i + 1) _ (by omega) hs

theorem replicate_zero_getD (m B : Nat) : ∀ t, (List.replicate m 0 : List Nat).getD t 0 ≤ B := by
  intro t
  rw [List.getD_eq_getElem?_getD, List.getElem?_replicate]
  split <;> simp

theorem buildGoodSuffixTableChecked_eq (pattern : CString) (hp : pattern.length ≠ 0) :
    buildGoodSuffixTableChecked pattern = some (buildGoodSuffixTable pattern) := by
  unfold buildGoodSuffixTableChecked buildGoodSuffixTable
  simp only
  obtain ⟨s1, s2, s3⟩ := gsSuffixLoop_spec pattern pattern.length (pattern.length - 1) 0
    (List.replicate pattern.length 0) (List.replicate pattern.length 0) (by omega)
    (replicate_zero_getD _ _)
  rw [List.length_replicate] at s1 s2
  rw [gsSuffixLoopChecked_eq pattern (pattern.length - 1) 0 _ _ (by omega)
    (List.length_replicate _ _) (List.length_replicate _ _)]
  simp only
  rw [gsPrefixShiftChecked_eq _ pattern.length s2 pattern.length 0 _ (by omega)
    (List.length_replicate _ _)]
  simp only
  exact gsSuffixShiftChecked_eq _ pattern.length s1 s3 (pattern.length - 1) 1 _ (by omega)
    (by rw [gsPrefixShift_length, List.length_replicate])

theorem bmInner_fst_le (text pattern : CString) (i : Nat) :
    ∀ (j cmp : Nat), (bmInner text pattern i j cmp).1 ≤ j := by
  intro j
  induction j with
  | zero => intro cmp; exact Nat.le_refl _
  | succ j ih =>
    intro cmp
    rw [bmInner]
    split
    · exact Nat.le_succ_of_le (ih (cmp + 1))
    · exact Nat.le_refl _

theorem bmInnerChecked_eq (text pattern : CString) (i : Nat) :
    ∀ (j cmp : Nat), j ≤ pattern.length → i + pattern.length ≤ text.length →
      bmInnerChecked text pattern i j cmp = some (bmInner text pattern i j cmp) := by
  intro j
  induction j with
  | zero => intro cmp _ _; rfl
  | succ j ih =>
    intro cmp hj hi
    have e : (i : Int) + (j : Int) = ((i + j : Nat) : Int) := by omega
    rw [bmInnerChecked, bmInner, e, readAt_charAt pattern j (by omega),
      readAt_charAt text (i + j) (by omega)]
    simp only
    by_cases hc : charAt pattern j = charAt text (i + j)
    · rw [if_pos hc, if_pos hc]
      exact ih (cmp + 1) (by omega) hi
    · rw [if_neg hc, if_neg hc]

theorem bmLoopChecked_eq (text pattern : CString) (badChar goodSuffix : List Int)
    (hp : pattern.length ≠ 0) (hm : pattern.length ≤ text.length)
    (hb : badChar.length = 256) (hg : goodSuffix.length = pattern.length) :
    ∀ (fuel i : Nat) (pos : List Int) (cmp : Nat),
      bmLoopChecked text pattern badChar goodSuffix text.length pattern.length fuel i pos cmp
        = Run.ofOption
            (bmLoop text pattern badChar goodSuffix text.length pattern.length fuel i pos cmp) := by
  intro fuel
  induction fuel with
  | zero => intro i pos cmp; rfl
  | succ f ih =>
    intro i pos cmp
    rw [bmLoopChecked, bmLoop]
    by_cases hi : i ≤ text.length - pattern.length
    · rw [if_pos hi, if_pos hi, bmInnerChecked_eq text pattern i pattern.length cmp
        (Nat.le_refl _) (by omega)]
      simp only
      have hle := bmInner_fst_le text pattern i pattern.length cmp
      by_cases h0 : (bmInner text pattern i pattern.length cmp).1 = 0
      · rw [if_pos h0, if_pos h0]
        have hr := readAt_nat goodSuffix 0 0 (by omega)
        rw [Int.natCast_zero] at hr
        rw [hr]
        exact ih _ _ _
      · rw [if_neg h0, if_neg h0]
        have e : (i : Int) + (((bmInner text pattern i pattern.length cmp).1 - 1 : Nat) : Int)
            = ((i + ((bmInner text pattern i pattern.length cmp).1 - 1) : Nat) : Int) := by
          omega
        rw [e, readAt_charAt text _ (by omega)]
        simp only
        rw [readAt_nat badChar _ 0 (by rw [hb]; exact Fin.isLt _),
          readAt_nat goodSuffix _ 0 (by omega)]
        exact ih _ _ _
    · rw [if_neg hi, if_neg hi]
      rfl

/-- C20: for a non-empty pattern, every vector or string index used by
`buildGoodSuffixTable` is in bounds (`suffix[k]` and `prefix[k]` are written with
`1 ≤ k ≤ m - 1`, `shift[...]` with an index in `[0, m - 1]`): its bounds-checked twin
returns, with the same table. For every text at least as long and every fuel, the same
holds of the scan loop of `boyerMooreSearch` (`text[i + j]`, `pattern[j]`, `goodSuffix[j]`,
`goodSuffix[0]`, `badChar[...]`): the checked loop never stops on an access out of bounds
and agrees with the unchecked one. -/
theorem boyerMoore_indices_in_bounds (pattern : CString) (hp : pattern ≠ []) :
    buildGoodSuffixTableChecked pattern = some (buildGoodSuffixTable pattern) ∧
    ∀ (text : CString) (fuel : Nat), pattern.length ≤ text.length →
      bmLoopChecked text pattern (buildBadCharacterTable pattern) (buildGoodSuffixTable pattern)
          text.length pattern.length fuel 0 [] 0
        = Run.ofOption
            (bmLoop text pattern (buildBadCharacterTable pattern) (buildGoodSuffixTable pattern)
              text.length pattern.length fuel 0 [] 0) := by
  have hp0 : pattern.length ≠ 0 := fun h => hp (List.length_eq_zero.mp h)
  refine ⟨buildGoodSuffixTableChecked_eq pattern hp0, fun text fuel hm => ?_⟩
  exact bmLoopChecked_eq text pattern _ _ hp0 hm (buildBadCharacterTable_spec pattern).1
    (buildGoodSuffixTable_length pattern) fuel 0 [] 0

theorem boyerMoore_indices_in_bounds_witness :
    buildGoodSuffixTableChecked [97, 98, 114, 97] = some (buildGoodSuffixTable [97, 98, 114, 97]) ∧
    bmLoopChecked [97, 97, 97, 97, 97, 97] [97, 97] (buildBadCharacterTable [97, 97])
        (buildGoodSuffixTable [97, 97]) ([97, 97, 97, 97, 97, 97] : CString).length
        ([97, 97] : CString).length 9 0 [] 0
      = Run.ofOption
          (bmLoop [97, 97, 97, 97, 97, 97] [97, 97] (buildBadCharacterTable [97, 97])
            (buildGoodSuffixTable [97, 97]) ([97, 97, 97, 97, 97, 97] : CString).length
            ([97, 97] : CString).length 9 0 [] 0) :=
  ⟨(boyerMoore_indices_in_bounds [97, 98, 114, 97] (by decide)).1,
   (boyerMoore_indices_in_bounds [97, 97] (by decide)).2 [97, 97, 97, 97, 97, 97] 9
     (by decide)⟩

/-! ## The claims on the hashes of `rabinKarpSearch` -/

/-- C12 (the code departs from it): the pattern hash and the hash of the first window are
not brought into `[0, modulus)`. With the defaults and the bytes `195, 169` (negative as
`char`), both are `-48`, while the value in `[0, 101)` congruent to the Horner polynomial
is `53`; only the rolled hash is normalised (`53` for the window at offset `1` of
`97, 195, 169`). -/
theorem rabinKarp_initial_hash_negative :
    rkInitHashes [195, 169] [195, 169] 256 101 2 0 (0, 0) = (-48, -48) ∧
    polyHash 256 [195, 169] % 101 = 53 ∧
    rkRoll [97, 195, 169] 256 101 (rkHighestPower 256 101 1 1) 2 0
      (rkInitHashes [97, 195, 169] [195, 169] 256 101 2 0 (0, 0)).2 = 53 ∧
    (rabinKarpSearch [97, 195, 169] [195, 169]).positions = [] ∧
    (bruteForceSearch [97, 195, 169] [195, 169]).positions = [1] := by
  decide

/-- C13 (fails as stated): with `base = 256` and `modulus = 1000000007`, both positive
32-bit values, and 32-bit wrap-around arithmetic, `rabinKarpSearch` misses the occurrence
of `"abcd"` at offset `1` of `"zabcd"` (all bytes below 128): the product
`base * (textHash - text[i] * highestPower)` leaves the range of `int`. -/
theorem rabinKarpSearch_overflow_misses :
    (rabinKarpSearch [122, 97, 98, 99, 100] [97, 98, 99, 100] 256 1000000007).positions = [] ∧
    (bruteForceSearch [122, 97, 98, 99, 100] [97, 98, 99, 100]).positions = [1] ∧
    (rkInitHashes [122, 97, 98, 99, 100] [97, 98, 99, 100] 256 1000000007 4 0 (0, 0))
      = (633837917, 53202517) ∧
    256 * (53202517 - charToInt 122 * rkHighestPower 256 1000000007 3 1) = -510366165760 ∧
    rkRoll [122, 97, 98, 99, 100] 256 1000000007 (rkHighestPower 256 1000000007 3 1) 4 0
      53202517 ≠ 633837917 := by
  decide

/-- C13 (amended): for every positive `base` and `modulus` with
`128 * base * modulus ≤ 2 ^ 31` (so that no `int` operation of the hash overflows; the
defaults 256 and 101 qualify) and every text and pattern whose bytes are all below 128,
the positions of `rabinKarpSearch` are those of `bruteForceSearch`. -/
theorem rabinKarpSearch_eq_bruteForceSearch_small (text pattern : CString) (base modulus : Int)
    (hb : 0 < base) (hM : 0 < modulus) (hB : 128 * (base * modulus) ≤ 2147483648)
    (ht : ∀ c ∈ text, c.val < 128) (hpt : ∀ c ∈ pattern, c.val < 128) :
    (rabinKarpSearch text pattern base modulus).positions
      = (bruteForceSearch text pattern).positions :=
  rabinKarpSearch_positions text pattern base modulus hb hM hB ht hpt

set_option maxRecDepth 4096 in
theorem rabinKarpSearch_eq_bruteForceSearch_small_witness :
    ((0 : Int) < 256 ∧ (0 : Int) < 101 ∧ (128 : Int) * (256 * 101) ≤ 2147483648) ∧
    (rabinKarpSearch [122, 97, 98, 99, 100] [97, 98, 99, 100] 256 101).positions
      = (bruteForceSearch [122, 97, 98, 99, 100] [97, 98, 99, 100]).positions ∧
    (bruteForceSearch [122, 97, 98, 99, 100] [97, 98, 99, 100]).positions = [1] :=
  ⟨by decide,
   rabinKarpSearch_eq_bruteForceSearch_small [122, 97, 98, 99, 100] [97, 98, 99, 100] 256 101
     (by decide) (by decide) (by decide) (by decide) (by decide),
   by decide⟩

end StringMatcher
